import Mathlib

/-!
# Verification of the JBridge invoice-processor pipeline

A shallow embedding of `src/invoice_processor.py` (text extraction from page
texts, prompt construction, markdown fence stripping via Python `str.split`,
`json.loads`-style parsing with Python `dict` semantics, the analyze dispatch,
and the two export artifacts), together with theorems checking the
natural-language specification's claims against that embedding.

Python strings are modelled as `List Char`.  Machine floats produced by
`json.loads` for JSON numbers with a fraction or exponent are modelled as
exact decimals (a sign, a natural mantissa and a power-of-ten exponent,
kept in normal form); all numeric values appearing in the claims are short
decimals on which binary floating point is exact, so the decimal model
agrees with Python there.
-/

set_option maxHeartbeats 4000000
set_option maxRecDepth 100000

abbrev Chars := List Char

/-! ## Python `str.split` / `in` / `strip` models -/

/-- `leadsWith p l` is true iff `p` is a leading run of `l`
(Boolean prefix test used by the split scanner). -/
def leadsWith : Chars → Chars → Bool
  | [], _ => true
  | _ :: _, [] => false
  | p :: ps, c :: cs => p == c && leadsWith ps cs

/-- Fuel-driven scanner for Python `str.split(sep)` with non-empty `sep =
c0 :: sep1`: scan left to right, cutting at each non-overlapping occurrence
of `sep`.  The fuel only needs to exceed the input length. -/
def splitGoF (c0 : Char) (sep1 : Chars) : Nat → Chars → Chars → List Chars
  | 0, l, acc => [acc ++ l]
  | _ + 1, [], acc => [acc]
  | f + 1, c :: cs, acc =>
    if c == c0 && leadsWith sep1 cs then
      acc :: splitGoF c0 sep1 f (cs.drop sep1.length) []
    else
      splitGoF c0 sep1 f cs (acc ++ [c])

/-- Python `l.split(sep)` for non-empty separators: the list of pieces
between consecutive non-overlapping occurrences of `sep`, scanned left to
right.  (Python raises on an empty separator; the `[]` case is never used.) -/
def pySplit (sep l : Chars) : List Chars :=
  match sep with
  | [] => [l]
  | c0 :: sep1 => splitGoF c0 sep1 (l.length + 1) l []

/-- Python `sub in s` substring test (for non-empty `sub`). -/
def hasSub (sep : Chars) : Chars → Bool
  | [] => sep.isEmpty
  | c :: cs => leadsWith sep (c :: cs) || hasSub sep cs

/-- Whitespace stripped by Python `str.strip()` (ASCII part; the claims never
exercise non-ASCII whitespace). -/
def pyWs (c : Char) : Bool :=
  c == ' ' || c == '\t' || c == '\n' || c == '\r' || c == '\x0b' || c == '\x0c'

/-- Python `s.strip()`. -/
def pyStrip (l : Chars) : Chars :=
  ((l.dropWhile pyWs).reverse.dropWhile pyWs).reverse

/-! ## Text Extractor (`extract_text_from_pdf`, lines 61-69)

The PDF reader itself is external; the function is modelled on the list of
per-page extraction results (`page.extract_text()` for each page in order,
the empty string standing for a page with no extractable text, which is
falsy in the `if page_text:` test exactly like `None`). -/

def extract_text_from_pdf (pages : List Chars) : Chars :=
  pages.foldl (fun text p => if p.isEmpty then text else text ++ p ++ ['\n']) []

/-! ## Prompt Builder (lines 29-59 and 77) -/

/-- The `INVOICE_EXTRACTION_PROMPT` constant, transcribed verbatim from the
source (braces written with `\x7b`/`\x7d` escapes). -/
def INVOICE_EXTRACTION_PROMPT : Chars :=
  ("Analyze this invoice/receipt text and extract the following information in JSON format:\n\n\x7b\n    \"vendor_name\": \"Company/business name\",\n    \"vendor_address\": \"Full address if available\",\n    \"invoice_number\": \"Invoice/receipt number\",\n    \"invoice_date\": \"Date in YYYY-MM-DD format\",\n    \"due_date\": \"Due date in YYYY-MM-DD format if available\",\n    \"subtotal\": \"Subtotal amount as number\",\n    \"tax\": \"Tax amount as number\",\n    \"total\": \"Total amount as number\",\n    \"currency\": \"Currency code (USD, EUR, etc.)\",\n    \"payment_method\": \"Credit card, cash, check, etc. if mentioned\",\n    \"line_items\": [\n        \x7b\n            \"description\": \"Item description\",\n            \"quantity\": \"Quantity as number\",\n            \"unit_price\": \"Price per unit as number\",\n            \"amount\": \"Line total as number\"\n        \x7d\n    ],\n    \"category_suggestion\": \"Suggested expense category (Office Supplies, Travel, Meals, Software, Professional Services, etc.)\",\n    \"notes\": \"Any additional relevant information\"\n\x7d\n\nBe precise with numbers - extract them without currency symbols.\nIf a field is not found, use null.\nFor dates, convert to YYYY-MM-DD format.\n\nINVOICE TEXT:\n").toList

/-- In the source the triple-quoted prompt constant ends with the newline that
joins the instruction header to the invoice text; `promptHeader` is the
instruction text proper (the constant without that final newline). -/
def promptHeader : Chars := INVOICE_EXTRACTION_PROMPT.dropLast

/-- Line 77: `prompt = INVOICE_EXTRACTION_PROMPT + text`. -/
def buildPrompt (text : Chars) : Chars := INVOICE_EXTRACTION_PROMPT ++ text

/-! ## Fence stripping (lines 85-88) -/

def fenceJson : Chars := "```json".toList

def fenceMark : Chars := "```".toList

/-- Lines 85-88:
`if "```json" in t: t = t.split("```json")[1].split("```")[0]`
`elif "```" in t: t = t.split("```")[1].split("```")[0]`. -/
def stripFences (t : Chars) : Chars :=
  if hasSub fenceJson t then
    (pySplit fenceMark ((pySplit fenceJson t).getD 1 [])).getD 0 []
  else if hasSub fenceMark t then
    (pySplit fenceMark ((pySplit fenceMark t).getD 1 [])).getD 0 []
  else t

-- sanity checks (Python-validated behaviours)
example : pySplit "```json".toList "pre```jsonMID```post".toList
    = ["pre".toList, "MID```post".toList] := by decide
example : stripFences "pre```jsonMID```post".toList = "MID".toList := by decide
example : stripFences "a```b```c```d".toList = "b".toList := by decide
example : stripFences "```jsonA`````json".toList = "A``".toList := by decide
example : stripFences "no fences".toList = "no fences".toList := by decide
example : pyStrip "  \n x y\t\n".toList = "x y".toList := by decide
example : extract_text_from_pdf ["pg1".toList, [], "pg3".toList]
    = "pg1\npg3\n".toList := by decide

/-! ## JSON values (results of `json.loads`)

`json.loads` yields Python `dict`/`list`/`str`/`int`/`float`/`bool`/`None`
values.  Numbers: an integer literal yields `int`; a literal with a fraction
or exponent yields `float`, modelled as an exact decimal in normal form
(mantissa not divisible by ten unless zero).  The claims only involve short
decimals, on which this agrees with binary floating point. -/

structure JNum where
  isInt : Bool
  neg : Bool
  mant : Nat
  exp : Int
deriving DecidableEq

inductive Json where
  | null
  | bool (b : Bool)
  | num (n : JNum)
  | str (s : Chars)
  | arr (elems : List Json)
  | obj (members : List (Chars × Json))

/-- CPython `dict` insertion: a repeated key keeps its first position but
takes the latest value; a fresh key is appended. -/
def insertPair (ms : List (Chars × Json)) (k : Chars) (v : Json) :
    List (Chars × Json) :=
  match ms with
  | [] => [(k, v)]
  | (k', v') :: rest =>
    if k' = k then (k', v) :: rest else (k', v') :: insertPair rest k v

/-- The object built by `json.loads` from parsed key/value pairs
(dict-comprehension semantics: later duplicates overwrite). -/
def buildDict (pairs : List (Chars × Json)) : List (Chars × Json) :=
  pairs.foldl (fun acc kv => insertPair acc kv.1 kv.2) []

/-- Python `d[k]` / `d.get(k)` on the association list of a parsed object. -/
def lookupJ (ms : List (Chars × Json)) (k : Chars) : Option Json :=
  match ms with
  | [] => none
  | (k', v) :: rest => if k' = k then some v else lookupJ rest k

/-! ## Number normalisation and parsing -/

/-- Strip factors of ten from a decimal mantissa (fuel-driven; any fuel
`> m` suffices).  `0` normalises to `(0, 0)`. -/
def normFloatF : Nat → Nat → Int → Nat × Int
  | 0, m, e => (m, e)
  | f + 1, m, e =>
    if m = 0 then (0, 0)
    else if m % 10 = 0 then normFloatF f (m / 10) (e + 1) else (m, e)

def normFloat (m : Nat) (e : Int) : Nat × Int := normFloatF (m + 1) m e

def mkInt (neg : Bool) (iv : Nat) : JNum := ⟨true, neg && iv != 0, iv, 0⟩

def mkFloat (neg : Bool) (m : Nat) (e : Int) : JNum :=
  let p := normFloat m e
  ⟨false, neg && p.1 != 0, p.1, p.2⟩

def digitVal (c : Char) : Nat := c.toNat - 48

/-- Value of a most-significant-first digit string. -/
def digitsVal (ds : Chars) : Nat := ds.foldl (fun a c => 10 * a + digitVal c) 0

/-- Exponent part of the JSON number grammar (`[eE][-+]?[0-9]+`, optional).
A number with a fraction or exponent becomes a float, otherwise an int. -/
def parseExpPart (neg : Bool) (mant : Nat) (exp0 : Int) (isFl : Bool)
    (r : Chars) : Option (JNum × Chars) :=
  match r with
  | c :: cs =>
    if c == 'e' || c == 'E' then
      let sr : Bool × Chars :=
        match cs with
        | d :: ds =>
          if d == '+' then (false, ds)
          else if d == '-' then (true, ds) else (false, cs)
        | [] => (false, [])
      let eds := sr.2.takeWhile Char.isDigit
      if eds.isEmpty then none
      else
        let ev : Int :=
          if sr.1 then -(digitsVal eds : Int) else (digitsVal eds : Int)
        some (mkFloat neg mant (exp0 + ev), sr.2.drop eds.length)
    else some (if isFl then mkFloat neg mant exp0 else mkInt neg mant, r)
  | [] => some (if isFl then mkFloat neg mant exp0 else mkInt neg mant, [])

/-- Fraction part of the JSON number grammar (`\.[0-9]+`, optional). -/
def parseFracPart (neg : Bool) (iv : Nat) (r : Chars) : Option (JNum × Chars) :=
  match r with
  | '.' :: r2 =>
    let fd := r2.takeWhile Char.isDigit
    if fd.isEmpty then none
    else
      parseExpPart neg (iv * 10 ^ fd.length + digitsVal fd)
        (-(fd.length : Int)) true (r2.drop fd.length)
  | _ => parseExpPart neg iv 0 false r

/-- Integer part of the JSON number grammar (`0|[1-9][0-9]*`), continuing
with the fraction/exponent parts. -/
def parseIntPart (neg : Bool) (l1 : Chars) : Option (JNum × Chars) :=
  match l1 with
  | [] => none
  | d :: ds =>
    if d == '0' then parseFracPart neg 0 ds
    else if d.isDigit then
      parseFracPart neg (digitsVal (List.takeWhile Char.isDigit (d :: ds)))
        (List.dropWhile Char.isDigit (d :: ds))
    else none

/-- JSON number grammar `-?(0|[1-9][0-9]*)(\.[0-9]+)?([eE][-+]?[0-9]+)?`
as matched by Python's `json` scanner. -/
def parseNumber (l : Chars) : Option (JNum × Chars) :=
  match l with
  | [] => none
  | c :: cs => if c == '-' then parseIntPart true cs else parseIntPart false l

/-! ## String parsing (Python `json` strict mode) -/

def parseHexDig (c : Char) : Option Nat :=
  if c.isDigit then some (c.toNat - 48)
  else if 'a' ≤ c && c ≤ 'f' then some (c.toNat - 87)
  else if 'A' ≤ c && c ≤ 'F' then some (c.toNat - 55)
  else none

def consCh (ch : Char) (r : Option (Chars × Chars)) : Option (Chars × Chars) :=
  match r with
  | some (s, rr) => some (ch :: s, rr)
  | none => none

/-- Four hexadecimal digits. -/
def parseHex4 (es : Chars) : Option (Nat × Chars) :=
  match es with
  | a :: b :: c :: d :: r =>
    match parseHexDig a, parseHexDig b, parseHexDig c, parseHexDig d with
    | some x, some y, some z, some w =>
      some (((x * 16 + y) * 16 + z) * 16 + w, r)
    | _, _, _, _ => none
  | _ => none

/-- The short escapes accepted after a backslash. -/
def escCharOf (e : Char) : Option Char :=
  if e == '"' then some '"'
  else if e == '\\' then some '\\'
  else if e == '/' then some '/'
  else if e == 'b' then some '\x08'
  else if e == 'f' then some '\x0c'
  else if e == 'n' then some '\n'
  else if e == 'r' then some '\r'
  else if e == 't' then some '\t'
  else none

/-- A `\uXXXX` escape (after the `\u`), with surrogate-pair combination.
A lone surrogate escape is rejected here (Python would produce a
lone-surrogate `str`, which has no `Char` counterpart; no claim exercises
this). -/
def parseUEscape (es : Chars) : Option (Char × Chars) :=
  match parseHex4 es with
  | none => none
  | some (n, r2) =>
    if 0xD800 ≤ n ∧ n < 0xDC00 then
      match r2 with
      | s1 :: s2 :: r3 =>
        if s1 == '\\' && s2 == 'u' then
          match parseHex4 r3 with
          | some (n2, r4) =>
            if 0xDC00 ≤ n2 ∧ n2 < 0xE000 then
              some (Char.ofNat
                (0x10000 + (n - 0xD800) * 0x400 + (n2 - 0xDC00)), r4)
            else none
          | none => none
        else none
      | _ => none
    else if 0xDC00 ≤ n ∧ n < 0xE000 then none
    else some (Char.ofNat n, r2)

/-- Body of a JSON string literal after the opening quote (fuel-driven; any
fuel exceeding the number of decoded characters suffices): raw characters
(strict mode rejects raw controls), the short escapes, and `\uXXXX`. -/
def parseStrBodyF : Nat → Chars → Option (Chars × Chars)
  | 0, _ => none
  | f + 1, l =>
    match l with
    | [] => none
    | c :: cs =>
      if c == '"' then some ([], cs)
      else if c == '\\' then
        match cs with
        | [] => none
        | e :: es =>
          if e == 'u' then
            match parseUEscape es with
            | some (ch, r) => consCh ch (parseStrBodyF f r)
            | none => none
          else
            match escCharOf e with
            | some ch => consCh ch (parseStrBodyF f es)
            | none => none
      else if c.toNat < 0x20 then none
      else consCh c (parseStrBodyF f cs)

def parseStrBody (l : Chars) : Option (Chars × Chars) :=
  parseStrBodyF (l.length + 1) l

/-! ## The fueled value parser (`json.loads` core)

Fuel is structural so that everything evaluates by kernel reduction; any
fuel exceeding the input length is enough, and `jsonLoads` supplies it. -/

def jsonWsC (c : Char) : Bool := c == ' ' || c == '\t' || c == '\n' || c == '\r'

def skipWs (l : Chars) : Chars := l.dropWhile jsonWsC

mutual

def parseValue : Nat → Chars → Option (Json × Chars)
  | 0, _ => none
  | f + 1, l =>
    match skipWs l with
    | [] => none
    | c :: cs =>
      if c == '"' then
        match parseStrBody cs with
        | some (s, r) => some (.str s, r)
        | none => none
      else if c == '\x7b' then
        match skipWs cs with
        | '\x7d' :: r => some (.obj [], r)
        | r' =>
          match parseMembers f r' with
          | some (ms, r) => some (.obj (buildDict ms), r)
          | none => none
      else if c == '[' then
        match skipWs cs with
        | ']' :: r => some (.arr [], r)
        | r' =>
          match parseElems f r' with
          | some (es, r) => some (.arr es, r)
          | none => none
      else if c == 't' then
        match cs with
        | 'r' :: 'u' :: 'e' :: r => some (.bool true, r)
        | _ => none
      else if c == 'f' then
        match cs with
        | 'a' :: 'l' :: 's' :: 'e' :: r => some (.bool false, r)
        | _ => none
      else if c == 'n' then
        match cs with
        | 'u' :: 'l' :: 'l' :: r => some (.null, r)
        | _ => none
      else
        match parseNumber (c :: cs) with
        | some (n, r) => some (.num n, r)
        | none => none

def parseMembers : Nat → Chars → Option (List (Chars × Json) × Chars)
  | 0, _ => none
  | f + 1, l =>
    match skipWs l with
    | '"' :: cs =>
      match parseStrBody cs with
      | some (k, r1) =>
        match skipWs r1 with
        | ':' :: r2 =>
          match parseValue f r2 with
          | some (v, r3) =>
            match skipWs r3 with
            | ',' :: r4 =>
              match parseMembers f r4 with
              | some (ms, r5) => some ((k, v) :: ms, r5)
              | none => none
            | '\x7d' :: r4 => some ([(k, v)], r4)
            | _ => none
          | none => none
        | _ => none
      | none => none
    | _ => none

def parseElems : Nat → Chars → Option (List Json × Chars)
  | 0, _ => none
  | f + 1, l =>
    match parseValue f l with
    | some (v, r1) =>
      match skipWs r1 with
      | ',' :: r2 =>
        match parseElems f r2 with
        | some (es, r3) => some (v :: es, r3)
        | none => none
      | ']' :: r2 => some ([v], r2)
      | _ => none
    | none => none

end

/-- `json.loads`: parse one value, allow trailing whitespace only.
(The `NaN`/`Infinity` extensions Python accepts are not modelled; no claim
involves them.) -/
def jsonLoads (l : Chars) : Option Json :=
  match parseValue (l.length + 1) l with
  | some (v, r) => if (skipWs r).isEmpty then some v else none
  | none => none

-- sanity checks (Python-validated)
example : jsonLoads "\x7b\"a\": 1\x7d".toList
    = some (Json.obj [("a".toList, Json.num (mkInt false 1))]) := rfl
example : jsonLoads "45.00".toList = some (Json.num ⟨false, false, 45, 0⟩) := rfl
example : jsonLoads "-0".toList = some (Json.num ⟨true, false, 0, 0⟩) := rfl
example : jsonLoads " [1, \"x\", null, true] ".toList
    = some (Json.arr [Json.num (mkInt false 1), Json.str "x".toList,
        Json.null, Json.bool true]) := rfl
example : jsonLoads "\x7b".toList = none := rfl
example : jsonLoads "\x7b\"a\": 1, \"a\": 2\x7d".toList
    = some (Json.obj [("a".toList, Json.num (mkInt false 2))]) := rfl
example : jsonLoads "\"a\\u00e9\\n\"".toList
    = some (Json.str ['a', 'é', '\n']) := rfl
example : jsonLoads "1e2".toList = some (Json.num ⟨false, false, 1, 2⟩) := rfl
example : jsonLoads "[1,]".toList = none := rfl

/-! ## Printing (`json.dumps`, with and without `indent=2`) -/

/-- Lowercase hexadecimal digit (also the decimal digit for `d < 10`). -/
def hexChar : Nat → Char
  | 0 => '0' | 1 => '1' | 2 => '2' | 3 => '3' | 4 => '4'
  | 5 => '5' | 6 => '6' | 7 => '7' | 8 => '8' | 9 => '9'
  | 10 => 'a' | 11 => 'b' | 12 => 'c' | 13 => 'd' | 14 => 'e' | _ => 'f'

/-- Most-significant-first decimal digits of `n` (fuel-driven, empty for 0). -/
def natCharsF : Nat → Nat → Chars
  | 0, _ => []
  | f + 1, n => if n = 0 then [] else natCharsF f (n / 10) ++ [hexChar (n % 10)]

/-- Decimal rendering of a natural number. -/
def natChars (n : Nat) : Chars := if n = 0 then ['0'] else natCharsF (n + 1) n

def hex4 (n : Nat) : Chars :=
  [hexChar (n / 4096 % 16), hexChar (n / 256 % 16), hexChar (n / 16 % 16),
    hexChar (n % 16)]

/-- `json.dumps` character escaping with the default `ensure_ascii=True`:
everything outside the printable ASCII range (and the quote/backslash and
short-escape characters) becomes `\uXXXX`, astral characters become a
surrogate pair. -/
def escChar (c : Char) : Chars :=
  if c == '"' then ['\\', '"']
  else if c == '\\' then ['\\', '\\']
  else if c == '\n' then ['\\', 'n']
  else if c == '\r' then ['\\', 'r']
  else if c == '\t' then ['\\', 't']
  else if c == '\x08' then ['\\', 'b']
  else if c == '\x0c' then ['\\', 'f']
  else if c.toNat < 0x20 ∨ 0x7f ≤ c.toNat then
    if c.toNat < 0x10000 then '\\' :: 'u' :: hex4 c.toNat
    else
      let m := c.toNat - 0x10000
      ('\\' :: 'u' :: hex4 (0xD800 + m / 0x400)) ++
        ('\\' :: 'u' :: hex4 (0xDC00 + m % 0x400))
  else [c]

def dumpStr (s : Chars) : Chars := '"' :: (s.map escChar).flatten ++ ['"']

/-- Plain decimal rendering of the float with value `m·10^e` (what Python's
`repr` produces for floats of moderate magnitude; the scientific-notation
switch Python makes at `≥ 1e16` / `< 1e-4` is outside every claim and not
modelled). -/
def floatBodyChars (m : Nat) (e : Int) : Chars :=
  if 0 ≤ e then natChars m ++ List.replicate e.toNat '0' ++ ['.', '0']
  else
    let k := (-e).toNat
    let ds := natChars m
    if k < ds.length then
      ds.take (ds.length - k) ++ '.' :: ds.drop (ds.length - k)
    else '0' :: '.' :: (List.replicate (k - ds.length) '0' ++ ds)

/-- Python rendering (`str`/`repr`, also used by `json.dumps`) of a parsed
number. -/
def numChars (n : JNum) : Chars :=
  (if n.neg then ['-'] else []) ++
    (if n.isInt then natChars n.mant else floatBodyChars n.mant n.exp)

/-- Whitespace layout of a `json.dumps` run: padding after an opening
bracket, after an item-separating comma, and before a closing bracket,
each as a function of nesting depth. -/
structure DumpCfg where
  openPad : Nat → Chars
  sepPad : Nat → Chars
  closePad : Nat → Chars

/-- Layout of plain `json.dumps(x)` (separators `", "` / `": "`). -/
def compactCfg : DumpCfg := ⟨fun _ => [], fun _ => [' '], fun _ => []⟩

/-- Layout of `json.dumps(x, indent=2)`. -/
def indent2Cfg : DumpCfg :=
  ⟨fun d => '\n' :: List.replicate (2 * d) ' ',
    fun d => '\n' :: List.replicate (2 * d) ' ',
    fun d => '\n' :: List.replicate (2 * d) ' '⟩

mutual

def dumpVal (cfg : DumpCfg) (d : Nat) : Json → Chars
  | .null => "null".toList
  | .bool true => "true".toList
  | .bool false => "false".toList
  | .num n => numChars n
  | .str s => dumpStr s
  | .arr [] => "[]".toList
  | .arr (v :: vs) =>
    '[' :: cfg.openPad (d + 1) ++ dumpItems cfg (d + 1) (v :: vs) ++
      cfg.closePad d ++ [']']
  | .obj [] => "\x7b\x7d".toList
  | .obj (m :: ms) =>
    '\x7b' :: cfg.openPad (d + 1) ++ dumpMembers cfg (d + 1) (m :: ms) ++
      cfg.closePad d ++ ['\x7d']

def dumpItems (cfg : DumpCfg) (d : Nat) : List Json → Chars
  | [] => []
  | [v] => dumpVal cfg d v
  | v :: v2 :: vs =>
    dumpVal cfg d v ++ ',' :: cfg.sepPad d ++ dumpItems cfg d (v2 :: vs)

def dumpMembers (cfg : DumpCfg) (d : Nat) : List (Chars × Json) → Chars
  | [] => []
  | [m] => dumpStr m.1 ++ ':' :: ' ' :: dumpVal cfg d m.2
  | m :: m2 :: ms =>
    dumpStr m.1 ++ ':' :: ' ' :: dumpVal cfg d m.2 ++ ',' :: cfg.sepPad d ++
      dumpMembers cfg d (m2 :: ms)

end

/-- `json.dumps(x)`. -/
def pyDumps (v : Json) : Chars := dumpVal compactCfg 0 v

/-- `json.dumps(x, indent=2)` (the structured-export serialisation). -/
def pyDumpsIndent2 (v : Json) : Chars := dumpVal indent2Cfg 0 v

/-! ## Python `str()` rendering used by the f-string export -/

mutual

/-- Python `repr` of a parsed JSON value (container rendering used by
`str()` inside f-strings).  String quoting is modelled plainly (no claim
renders a container or a string needing `repr`-escaping). -/
def pyRepr : Json → Chars
  | .null => "None".toList
  | .bool true => "True".toList
  | .bool false => "False".toList
  | .num n => numChars n
  | .str s => '\x27' :: s ++ ['\x27']
  | .arr [] => "[]".toList
  | .arr (v :: vs) => '[' :: reprItems (v :: vs) ++ [']']
  | .obj [] => "\x7b\x7d".toList
  | .obj (m :: ms) => '\x7b' :: reprMembers (m :: ms) ++ ['\x7d']

def reprItems : List Json → Chars
  | [] => []
  | [v] => pyRepr v
  | v :: v2 :: vs => pyRepr v ++ ',' :: ' ' :: reprItems (v2 :: vs)

def reprMembers : List (Chars × Json) → Chars
  | [] => []
  | [m] => '\x27' :: m.1 ++ '\x27' :: ':' :: ' ' :: pyRepr m.2
  | m :: m2 :: ms =>
    '\x27' :: m.1 ++ '\x27' :: ':' :: ' ' :: pyRepr m.2 ++ ',' :: ' ' ::
      reprMembers (m2 :: ms)

end

/-- Python `str()` as used by f-string interpolation: identity on `str`,
`repr` otherwise (`None ↦ "None"`, numbers in decimal, ...). -/
def pyStr (v : Json) : Chars :=
  match v with
  | .str s => s
  | w => pyRepr w

/-! ## The analyze step (`analyze_invoice_with_gemini`, lines 71-94) -/

def errKey : Chars := "error".toList

def rawKey : Chars := "raw_response".toList

/-- Line 74: the message returned when no API key was configured. -/
def noKeyMsg : Chars := "GEMINI_API_KEY not configured. Set in .env file.".toList

/-- Line 92: the message returned when `json.loads` raises. -/
def parseFailMsg : Chars := "Failed to parse response".toList

/-- Lines 71-94.  `configured` models the truthiness of the module-level
`GEMINI_API`; `modelCall` models `model.generate_content(prompt).text`,
applied to the composed prompt — `.ok` is the raw reply text, `.error e`
is `str(e)` for an exception raised by the call (caught by the generic
`except Exception` handler).  The second component counts how many times
the model service was invoked. -/
def analyze_invoice_with_gemini (configured : Bool)
    (modelCall : Chars → Except Chars Chars) (text : Chars) : Json × Nat :=
  if !configured then
    (Json.obj [(errKey, Json.str noKeyMsg)], 0)
  else
    match modelCall (buildPrompt text) with
    | .error e => (Json.obj [(errKey, Json.str e)], 1)
    | .ok raw =>
      match jsonLoads (pyStrip (stripFences raw)) with
      | some v => (v, 1)
      | none =>
        (Json.obj [(errKey, Json.str parseFailMsg), (rawKey, Json.str raw)], 1)

/-- The shell's dispatch `if "error" in result` (line 122), specialised to
dict results, refined to require a rendered message: an object whose
`"error"` member is a string. -/
def isErrObjB (v : Json) : Bool :=
  match v with
  | .obj ms =>
    match lookupJ ms errKey with
    | some (Json.str _) => true
    | _ => false
  | _ => false

/-- A dict result the shell renders as a record (no `"error"` key). -/
def isRecordObjB (v : Json) : Bool :=
  match v with
  | .obj ms => (lookupJ ms errKey).isNone
  | _ => false

/-! ## Exports (lines 153-167) -/

/-- `result.get(k, '')` as used by the f-string in `csv_line`. -/
def getCsv (result : Json) (k : Chars) : Json :=
  match result with
  | .obj ms => (lookupJ ms k).getD (Json.str [])
  | _ => Json.str []

/-- Line 161: `csv_line = f"{result.get('invoice_date','')},...}"`. -/
def csv_line (result : Json) : Chars :=
  pyStr (getCsv result "invoice_date".toList) ++ ',' ::
    pyStr (getCsv result "vendor_name".toList) ++ ',' ::
    pyStr (getCsv result "total".toList) ++ ',' ::
    pyStr (getCsv result "category_suggestion".toList)

/-- Line 164: the flat-export document `f"date,vendor,total,category\n{csv_line}"`. -/
def csvExport (result : Json) : Chars :=
  "date,vendor,total,category\n".toList ++ csv_line result

/-- Lines 153-158: the structured-export document `json.dumps(result, indent=2)`. -/
def exportJson (result : Json) : Chars := pyDumpsIndent2 result

/-! ## The InvoiceRecord data model (spec §3) -/

structure LineItem where
  description : Option Chars
  quantity : Option JNum
  unit_price : Option JNum
  amount : Option JNum

structure InvoiceRecord where
  vendor_name : Option Chars
  vendor_address : Option Chars
  invoice_number : Option Chars
  invoice_date : Option Chars
  due_date : Option Chars
  subtotal : Option JNum
  tax : Option JNum
  total : Option JNum
  currency : Option Chars
  payment_method : Option Chars
  line_items : List LineItem
  category_suggestion : Option Chars
  notes : Option Chars

def optStr : Option Chars → Json
  | none => .null
  | some s => .str s

def optNum : Option JNum → Json
  | none => .null
  | some n => .num n

def lineItemToJson (it : LineItem) : Json :=
  .obj [("description".toList, optStr it.description),
    ("quantity".toList, optNum it.quantity),
    ("unit_price".toList, optNum it.unit_price),
    ("amount".toList, optNum it.amount)]

/-- The §3 schema object of a record, keys in schema order. -/
def recordToJson (r : InvoiceRecord) : Json :=
  .obj [("vendor_name".toList, optStr r.vendor_name),
    ("vendor_address".toList, optStr r.vendor_address),
    ("invoice_number".toList, optStr r.invoice_number),
    ("invoice_date".toList, optStr r.invoice_date),
    ("due_date".toList, optStr r.due_date),
    ("subtotal".toList, optNum r.subtotal),
    ("tax".toList, optNum r.tax),
    ("total".toList, optNum r.total),
    ("currency".toList, optStr r.currency),
    ("payment_method".toList, optStr r.payment_method),
    ("line_items".toList, .arr (r.line_items.map lineItemToJson)),
    ("category_suggestion".toList, optStr r.category_suggestion),
    ("notes".toList, optStr r.notes)]

/-- Normal form for modelled machine numbers: what `json.loads` can
actually produce. -/
def numNormal (n : JNum) : Bool :=
  if n.mant = 0 then !n.neg && n.exp == 0
  else if n.isInt then n.exp == 0
  else n.mant % 10 != 0

def optNumNormal : Option JNum → Bool
  | none => true
  | some n => numNormal n

def lineItemValid (it : LineItem) : Bool :=
  optNumNormal it.quantity && optNumNormal it.unit_price && optNumNormal it.amount

/-- A valid record: all numeric fields in machine normal form. -/
def recordValid (r : InvoiceRecord) : Bool :=
  optNumNormal r.subtotal && optNumNormal r.tax && optNumNormal r.total &&
    r.line_items.all lineItemValid

/-! ## Well-formed parsed values (what `json.loads` outputs) -/

def keysNoDup : List Chars → Bool
  | [] => true
  | k :: ks => !(ks.contains k) && keysNoDup ks

mutual

def wfJ : Json → Bool
  | .null => true
  | .bool _ => true
  | .str _ => true
  | .num n => numNormal n
  | .arr es => wfItems es
  | .obj ms => keysNoDup (ms.map Prod.fst) && wfMembers ms

def wfItems : List Json → Bool
  | [] => true
  | v :: vs => wfJ v && wfItems vs

def wfMembers : List (Chars × Json) → Bool
  | [] => true
  | m :: ms => wfJ m.2 && wfMembers ms

end

-- sanity checks (Python-validated)
example : pyDumps (Json.obj [("a".toList, Json.num (mkInt false 1)),
    ("b".toList, Json.arr [Json.num ⟨false, false, 45, 0⟩])])
    = "\x7b\"a\": 1, \"b\": [45.0]\x7d".toList := rfl
example : pyDumpsIndent2 (Json.obj [("a".toList, Json.num (mkInt false 1))])
    = "\x7b\n  \"a\": 1\n\x7d".toList := rfl
example : pyDumpsIndent2 (Json.obj [("b".toList, Json.arr [Json.null])])
    = "\x7b\n  \"b\": [\n    null\n  ]\n\x7d".toList := rfl
example : pyStr (Json.num ⟨false, false, 45, 0⟩) = "45.0".toList := rfl
example : pyStr Json.null = "None".toList := rfl
example : csv_line (Json.obj [("invoice_date".toList, Json.null)])
    = "None,,,".toList := rfl
example : pyDumps (Json.str ['a', 'é', '\n']) = "\"a\\u00e9\\n\"".toList := rfl

/-! ### Split lemmas -/

theorem leadsWith_iff (p l : Chars) : leadsWith p l = true ↔ p <+: l := by
  induction p generalizing l with
  | nil => simp [leadsWith]
  | cons a ps ih =>
    cases l with
    | nil => simp [leadsWith]
    | cons c cs =>
      simp only [leadsWith, Bool.and_eq_true, beq_iff_eq, ih]
      constructor
      · rintro ⟨rfl, t, rfl⟩
        exact ⟨t, rfl⟩
      · rintro ⟨t, ht⟩
        obtain ⟨rfl, h2⟩ := List.cons.inj ht
        exact ⟨rfl, t, h2⟩

theorem hasSub_cons (sep : Chars) (c : Char) (cs : Chars) :
    hasSub sep (c :: cs) = (leadsWith sep (c :: cs) || hasSub sep cs) := rfl

theorem hasSub_iff (sep l : Chars) : hasSub sep l = true ↔ sep <:+: l := by
  induction l with
  | nil => simp [hasSub, List.isEmpty_iff]
  | cons c cs ih =>
    rw [hasSub_cons]
    simp only [Bool.or_eq_true, leadsWith_iff, ih, List.infix_cons_iff]

theorem splitGoF_acc (c0 : Char) (sep1 : Chars) (f : Nat) (l acc : Chars) :
    splitGoF c0 sep1 f l acc = (splitGoF c0 sep1 f l []).modifyHead (acc ++ ·) := by
  induction f generalizing l acc with
  | zero => simp [splitGoF]
  | succ f ih =>
    cases l with
    | nil => simp [splitGoF]
    | cons c cs =>
      by_cases hg : (c == c0 && leadsWith sep1 cs) = true
      · simp [splitGoF, hg]
      · simp only [splitGoF, hg, Bool.false_eq_true, if_false]
        rw [ih cs (acc ++ [c]), ih cs ([] ++ [c])]
        simp [List.modifyHead_modifyHead, Function.comp_def]

theorem splitGoF_ne_nil (c0 : Char) (sep1 : Chars) (f : Nat) (l acc : Chars) :
    splitGoF c0 sep1 f l acc ≠ [] := by
  induction f generalizing l acc with
  | zero => simp [splitGoF]
  | succ f ih =>
    cases l with
    | nil => simp [splitGoF]
    | cons c cs =>
      by_cases hg : (c == c0 && leadsWith sep1 cs) = true
      · simp [splitGoF, hg]
      · simp only [splitGoF, hg, Bool.false_eq_true, if_false]
        exact ih _ _

theorem pySplit_ne_nil (sep l : Chars) : pySplit sep l ≠ [] := by
  cases sep with
  | nil => simp [pySplit]
  | cons c0 sep1 => exact splitGoF_ne_nil _ _ _ _ _

theorem splitGoF_irrel (c0 : Char) (sep1 : Chars) (f1 : Nat) :
    ∀ f2 l acc, l.length < f1 → l.length < f2 →
      splitGoF c0 sep1 f1 l acc = splitGoF c0 sep1 f2 l acc := by
  induction f1 with
  | zero => omega
  | succ f1 ih =>
    intro f2 l acc h1 h2
    cases f2 with
    | zero => omega
    | succ f2 =>
      cases l with
      | nil => simp [splitGoF]
      | cons c cs =>
        simp only [splitGoF]
        by_cases hg : (c == c0 && leadsWith sep1 cs) = true
        · simp only [hg, if_true]
          have hd : (cs.drop sep1.length).length ≤ cs.length := by
            simp [List.length_drop]
          have := ih f2 (cs.drop sep1.length) []
            (by simp at h1; omega) (by simp at h2; omega)
          rw [this]
        · simp only [hg, Bool.false_eq_true, if_false]
          exact ih f2 cs (acc ++ [c]) (by simp at h1 ⊢; omega)
            (by simp at h2 ⊢; omega)

theorem leadsWith_append_self (p x : Chars) : leadsWith p (p ++ x) = true :=
  (leadsWith_iff p (p ++ x)).mpr ⟨x, rfl⟩

theorem pySplit_lead (c0 : Char) (sep1 l : Chars)
    (h : leadsWith (c0 :: sep1) l = true) :
    pySplit (c0 :: sep1) l
      = [] :: pySplit (c0 :: sep1) (l.drop (sep1.length + 1)) := by
  cases l with
  | nil => simp [leadsWith] at h
  | cons c cs =>
    simp only [leadsWith, Bool.and_eq_true, beq_iff_eq] at h
    obtain ⟨rfl, hl⟩ := h
    simp only [pySplit, List.length_cons, splitGoF, beq_self_eq_true,
      Bool.true_and, hl, if_true, List.drop_succ_cons]
    congr 1
    exact splitGoF_irrel _ _ _ _ _ _
      (by have := List.length_drop sep1.length cs; omega)
      (by omega)

theorem pySplit_not_lead (c0 : Char) (sep1 : Chars) (c : Char) (cs : Chars)
    (h : leadsWith (c0 :: sep1) (c :: cs) = false) :
    pySplit (c0 :: sep1) (c :: cs)
      = (pySplit (c0 :: sep1) cs).modifyHead (c :: ·) := by
  simp only [leadsWith] at h
  have hg : (c == c0 && leadsWith sep1 cs) = false := by
    by_cases hc : c = c0
    · subst hc; exact h
    · simp [beq_iff_eq, hc]
  simp only [pySplit, List.length_cons, splitGoF, hg, Bool.false_eq_true,
    if_false]
  rw [splitGoF_acc]
  rfl

theorem modifyHead_getD (L : List Chars) (hL : L ≠ []) (f : Chars → Chars) :
    (L.modifyHead f).getD 0 [] = f (L.getD 0 []) := by
  cases L with
  | nil => exact absurd rfl hL
  | cons a as => rfl

/-- An occurrence of `sep` starting strictly inside `a` (within `a ++ sep ++ b`)
would already appear in `a ++ sep.dropLast`. -/
theorem leadsWith_false_of_no_early (sep : Chars) (hs : sep ≠ [])
    (a b : Chars) (ha : a ≠ [])
    (h : hasSub sep (a ++ sep.dropLast) = false) :
    leadsWith sep (a ++ sep ++ b) = false := by
  by_contra hcon
  rw [Bool.not_eq_false, leadsWith_iff, List.prefix_iff_eq_take] at hcon
  have hlen : sep.length ≤ (a ++ sep.dropLast).length := by
    simp [List.length_dropLast]
    have : 1 ≤ a.length := List.length_pos.mpr ha
    have : 1 ≤ sep.length := List.length_pos.mpr hs
    omega
  have hdecomp : a ++ sep ++ b
      = (a ++ sep.dropLast) ++ ([sep.getLast hs] ++ b) := by
    conv_lhs => rw [← List.dropLast_append_getLast hs]
    simp [List.append_assoc]
  rw [hdecomp, List.take_append_of_le_length hlen] at hcon
  have : sep <+: (a ++ sep.dropLast) := by
    rw [List.prefix_iff_eq_take]; exact hcon
  have : hasSub sep (a ++ sep.dropLast) = true :=
    (hasSub_iff ..).mpr this.isInfix
  simp [this] at h

theorem pySplit_append_sep (sep pre rest : Chars) (hs : sep ≠ [])
    (h : hasSub sep (pre ++ sep.dropLast) = false) :
    pySplit sep (pre ++ sep ++ rest) = pre :: pySplit sep rest := by
  obtain ⟨c0, sep1, rfl⟩ : ∃ c0 sep1, sep = c0 :: sep1 := by
    cases sep with
    | nil => exact absurd rfl hs
    | cons c0 sep1 => exact ⟨c0, sep1, rfl⟩
  induction pre with
  | nil =>
    simp only [List.nil_append]
    rw [pySplit_lead _ _ _ (leadsWith_append_self ..)]
    congr 1
    have : sep1.length + 1 = (c0 :: sep1).length := by simp
    rw [this, List.drop_left]
  | cons x pre' ih =>
    have hne : (x :: pre' : Chars) ≠ [] := by simp
    have hnl := leadsWith_false_of_no_early (c0 :: sep1) hs (x :: pre') rest
      hne h
    rw [List.cons_append, List.cons_append]
    rw [List.cons_append, List.cons_append] at hnl
    rw [pySplit_not_lead _ _ _ _ hnl]
    have h' : hasSub (c0 :: sep1) (pre' ++ (c0 :: sep1).dropLast) = false := by
      rw [List.cons_append, hasSub_cons] at h
      exact (Bool.or_eq_false_iff.mp h).2
    rw [ih h']
    rfl

theorem pySplit_no_occ (sep l : Chars) (hs : sep ≠ [])
    (h : hasSub sep l = false) : pySplit sep l = [l] := by
  obtain ⟨c0, sep1, rfl⟩ : ∃ c0 sep1, sep = c0 :: sep1 := by
    cases sep with
    | nil => exact absurd rfl hs
    | cons c0 sep1 => exact ⟨c0, sep1, rfl⟩
  induction l with
  | nil => simp [pySplit, splitGoF]
  | cons c cs ih =>
    rw [hasSub_cons] at h
    obtain ⟨h1, h2⟩ := Bool.or_eq_false_iff.mp h
    rw [pySplit_not_lead _ _ _ _ h1, ih h2]
    rfl

theorem head_pySplit_append (sep u w : Chars) (hs : sep ≠ [])
    (h : hasSub sep (u ++ w.take (sep.length - 1)) = false) :
    (pySplit sep (u ++ w)).getD 0 [] = u ++ (pySplit sep w).getD 0 [] := by
  obtain ⟨c0, sep1, rfl⟩ : ∃ c0 sep1, sep = c0 :: sep1 := by
    cases sep with
    | nil => exact absurd rfl hs
    | cons c0 sep1 => exact ⟨c0, sep1, rfl⟩
  simp only [List.length_cons, Nat.add_sub_cancel] at h
  induction u with
  | nil => simp
  | cons x u' ih =>
    simp only [List.cons_append] at h ⊢
    have hnl : leadsWith (c0 :: sep1) (x :: (u' ++ w)) = false := by
      by_contra hcon
      rw [Bool.not_eq_false, leadsWith_iff] at hcon
      have hle : (c0 :: sep1).length ≤ (x :: (u' ++ w)).length :=
        hcon.length_le
      have hpre : (c0 :: sep1)
          <+: (x :: (u' ++ w.take sep1.length)) := by
        rw [List.prefix_iff_eq_take] at hcon ⊢
        have hdec : x :: (u' ++ w)
            = (x :: (u' ++ w.take sep1.length))
              ++ w.drop sep1.length := by
          simp [List.append_assoc]
        rw [hdec] at hcon
        have hlen2 : (c0 :: sep1).length
            ≤ (x :: (u' ++ w.take sep1.length)).length := by
          simp only [List.length_cons, List.length_append, List.length_take]
          simp only [List.length_cons, List.length_append] at hle
          omega
        rw [List.take_append_of_le_length hlen2] at hcon
        exact hcon
      have htrue : hasSub (c0 :: sep1)
          (x :: (u' ++ w.take sep1.length)) = true :=
        (hasSub_iff ..).mpr hpre.isInfix
      rw [htrue] at h
      exact Bool.true_eq_false ▸ h
    rw [pySplit_not_lead c0 sep1 x (u' ++ w) hnl,
      modifyHead_getD _ (pySplit_ne_nil _ _)]
    have h' : hasSub (c0 :: sep1) (u' ++ w.take sep1.length) = false := by
      rw [hasSub_cons] at h
      exact (Bool.or_eq_false_iff.mp h).2
    rw [ih h']

/-! ### stripFences characterisation -/

theorem fenceJson_ne_nil : fenceJson ≠ [] := by decide

theorem fenceMark_ne_nil : fenceMark ≠ [] := by decide

theorem getD_one_cons (a : Chars) (L : List Chars) :
    (a :: L).getD 1 [] = L.getD 0 [] := rfl

theorem hasSub_of_mid {sep t : Chars} (h : sep <:+: t) :
    hasSub sep t = true := (hasSub_iff ..).mpr h

theorem hasSub_false_mono {sep u t : Chars} (hsub : u <:+: t)
    (h : hasSub sep t = false) : hasSub sep u = false := by
  cases hx : hasSub sep u with
  | false => rfl
  | true =>
    have := ((hasSub_iff ..).mp hx).trans hsub
    rw [hasSub_of_mid this] at h
    exact absurd h (by simp)

theorem stripFences_json (pre mid post : Chars)
    (h1 : hasSub fenceJson (pre ++ fenceJson.dropLast) = false)
    (h2 : hasSub fenceMark (mid ++ fenceMark.dropLast) = false)
    (h3 : hasSub fenceJson (mid ++ fenceMark ++ post.take 6) = false) :
    stripFences (pre ++ fenceJson ++ (mid ++ fenceMark ++ post)) = mid := by
  have hin : hasSub fenceJson (pre ++ fenceJson ++ (mid ++ fenceMark ++ post))
      = true := hasSub_of_mid (List.infix_append ..)
  rw [stripFences, if_pos hin,
    pySplit_append_sep fenceJson pre _ fenceJson_ne_nil h1, getD_one_cons]
  rw [head_pySplit_append fenceJson (mid ++ fenceMark) post
    fenceJson_ne_nil h3]
  rw [pySplit_append_sep fenceMark mid _ fenceMark_ne_nil h2]
  rfl

theorem stripFences_generic (pre mid post : Chars)
    (hNoJ : hasSub fenceJson (pre ++ fenceMark ++ (mid ++ fenceMark ++ post))
      = false)
    (hpre : hasSub fenceMark (pre ++ fenceMark.dropLast) = false)
    (hmid : hasSub fenceMark (mid ++ fenceMark.dropLast) = false) :
    stripFences (pre ++ fenceMark ++ (mid ++ fenceMark ++ post)) = mid := by
  have hin : hasSub fenceMark (pre ++ fenceMark ++ (mid ++ fenceMark ++ post))
      = true := hasSub_of_mid (List.infix_append ..)
  rw [stripFences, if_neg (by simpa using hNoJ), if_pos hin,
    pySplit_append_sep fenceMark pre _ fenceMark_ne_nil hpre, getD_one_cons,
    pySplit_append_sep fenceMark mid _ fenceMark_ne_nil hmid]
  have hmid' : hasSub fenceMark mid = false :=
    hasSub_false_mono ⟨[], fenceMark.dropLast, by simp⟩ hmid
  show (pySplit fenceMark mid).getD 0 [] = mid
  rw [pySplit_no_occ fenceMark mid fenceMark_ne_nil hmid']
  rfl

theorem stripFences_nofence (t : Chars) (h : hasSub fenceMark t = false) :
    stripFences t = t := by
  have hJ : hasSub fenceJson t = false := by
    cases hx : hasSub fenceJson t with
    | false => rfl
    | true =>
      have hFj : fenceMark <+: fenceJson := ⟨"json".toList, rfl⟩
      have := hFj.isInfix.trans ((hasSub_iff ..).mp hx)
      rw [hasSub_of_mid this] at h
      exact absurd h (by simp)
  rw [stripFences, if_neg (by simp [hJ]), if_neg (by simp [h])]

/-! ### Python strip lemmas -/

theorem dropWhile_all_append (p : Char → Bool) (w l : Chars)
    (hw : ∀ c ∈ w, p c = true) :
    (w ++ l).dropWhile p = l.dropWhile p := by
  induction w with
  | nil => rfl
  | cons c w' ih =>
    rw [List.cons_append, List.dropWhile_cons, if_pos (hw c (by simp))]
    exact ih fun c hc => hw c (by simp [hc])

theorem dropWhile_head_false (p : Char → Bool) (l : Chars)
    (h : ∀ c, l.head? = some c → p c = false) : l.dropWhile p = l := by
  cases l with
  | nil => rfl
  | cons c cs => rw [List.dropWhile_cons, if_neg (by simp [h c rfl])]

theorem pyStrip_sandwich (w1 mid w2 : Chars)
    (h1 : ∀ c ∈ w1, pyWs c = true) (h2 : ∀ c ∈ w2, pyWs c = true)
    (hh : ∀ c, mid.head? = some c → pyWs c = false)
    (hl : ∀ c, mid.getLast? = some c → pyWs c = false) :
    pyStrip (w1 ++ (mid ++ w2)) = mid := by
  rw [pyStrip, dropWhile_all_append _ _ _ h1]
  cases mid with
  | nil =>
    have hw2 : w2.dropWhile pyWs = [] := List.dropWhile_eq_nil_iff.mpr (by
      intro c hc; simpa using h2 c hc)
    rw [List.nil_append, hw2]
    rfl
  | cons m mid' =>
    rw [List.cons_append, List.dropWhile_cons, if_neg (by simp [hh m rfl])]
    rw [show (m :: (mid' ++ w2)) = ((m :: mid') ++ w2) from rfl,
      List.reverse_append, dropWhile_all_append _ _ _ (by
        intro c hc; exact h2 c (by simpa using hc))]
    rw [dropWhile_head_false _ _ (by
      intro c hc
      exact hl c (by rwa [← List.head?_reverse]))]
    exact List.reverse_reverse _

/-! ### Decimal digit lemmas -/

theorem digitVal_hexChar : ∀ d, d < 10 → digitVal (hexChar d) = d := by decide

theorem isDigit_hexChar : ∀ d, d < 10 → (hexChar d).isDigit = true := by decide

theorem hexChar_ne_zero : ∀ d, d < 10 → 0 < d → hexChar d ≠ '0' := by decide

theorem digitsVal_from (a : Nat) (ds : Chars) :
    ds.foldl (fun x c => 10 * x + digitVal c) a
      = a * 10 ^ ds.length + digitsVal ds := by
  induction ds generalizing a with
  | nil => simp [digitsVal]
  | cons c ds ih =>
    simp only [List.foldl_cons, List.length_cons, digitsVal]
    rw [ih (10 * a + digitVal c), ih (10 * 0 + digitVal c)]
    ring

theorem digitsVal_append (ds es : Chars) :
    digitsVal (ds ++ es) = digitsVal ds * 10 ^ es.length + digitsVal es := by
  rw [digitsVal, List.foldl_append, digitsVal_from]
  rfl

theorem digitsVal_concat (ds : Chars) (c : Char) :
    digitsVal (ds ++ [c]) = digitsVal ds * 10 + digitVal c := by
  rw [digitsVal_append]
  simp [digitsVal]

theorem digitsVal_replicate_zero (k : Nat) :
    digitsVal (List.replicate k '0') = 0 := by
  induction k with
  | zero => rfl
  | succ k ih =>
    rw [List.replicate_succ, digitsVal, List.foldl_cons]
    show List.foldl _ 0 (List.replicate k '0') = 0
    exact ih

theorem natCharsF_digitsVal : ∀ f n, n < 10 ^ f →
    digitsVal (natCharsF f n) = n := by
  intro f
  induction f with
  | zero => intro n hn; interval_cases n; rfl
  | succ f ih =>
    intro n hn
    by_cases h0 : n = 0
    · subst h0; simp [natCharsF, digitsVal]
    · rw [natCharsF, if_neg h0, digitsVal_concat,
        ih (n / 10) (by rw [pow_succ] at hn; omega),
        digitVal_hexChar _ (Nat.mod_lt n (by norm_num))]
      omega

theorem natCharsF_digits : ∀ f n c, c ∈ natCharsF f n → c.isDigit = true := by
  intro f
  induction f with
  | zero => intro n c hc; simp [natCharsF] at hc
  | succ f ih =>
    intro n c hc
    by_cases h0 : n = 0
    · subst h0; simp [natCharsF] at hc
    · rw [natCharsF, if_neg h0] at hc
      rcases List.mem_append.mp hc with h | h
      · exact ih _ _ h
      · simp at h
        subst h
        exact isDigit_hexChar _ (Nat.mod_lt n (by norm_num))

theorem natCharsF_ne_nil : ∀ f n, n ≠ 0 → n < 10 ^ f → natCharsF f n ≠ [] := by
  intro f n h0 hn
  cases f with
  | zero => interval_cases n; exact absurd rfl h0
  | succ f => rw [natCharsF, if_neg h0]; simp

theorem natCharsF_head : ∀ f n, n ≠ 0 → n < 10 ^ f →
    ∀ c, (natCharsF f n).head? = some c → c ≠ '0' ∧ c.isDigit = true := by
  intro f
  induction f with
  | zero => intro n h0 hn; interval_cases n; exact absurd rfl h0
  | succ f ih =>
    intro n h0 hn c hc
    rw [natCharsF, if_neg h0] at hc
    by_cases hq : n / 10 = 0
    · have hzero : natCharsF f (n / 10) = [] := by
        rw [hq]; cases f <;> simp [natCharsF]
      rw [hzero, List.nil_append] at hc
      simp only [List.head?_cons, Option.some.injEq] at hc
      subst hc
      have h10 : n < 10 := by omega
      have h1 : 0 < n % 10 := by omega
      exact ⟨hexChar_ne_zero _ (Nat.mod_lt n (by norm_num)) h1,
        isDigit_hexChar _ (Nat.mod_lt n (by norm_num))⟩
    · have hq10 : n / 10 < 10 ^ f := by rw [pow_succ] at hn; omega
      rw [List.head?_append_of_ne_nil _ (natCharsF_ne_nil f (n / 10) hq hq10)]
        at hc
      exact ih (n / 10) hq hq10 c hc

theorem natChars_digitsVal (n : Nat) : digitsVal (natChars n) = n := by
  rw [natChars]
  by_cases h0 : n = 0
  · subst h0; rfl
  · rw [if_neg h0]
    exact natCharsF_digitsVal (n + 1) n
      (lt_of_lt_of_le (Nat.lt_pow_self (by norm_num) n)
        (Nat.pow_le_pow_right (by norm_num) (by omega)))

theorem natChars_digits (n : Nat) : ∀ c ∈ natChars n, c.isDigit = true := by
  rw [natChars]
  by_cases h0 : n = 0
  · subst h0; intro c hc; simp at hc; subst hc; rfl
  · rw [if_neg h0]; exact fun c hc => natCharsF_digits _ _ _ hc

theorem natChars_ne_nil (n : Nat) : natChars n ≠ [] := by
  rw [natChars]
  by_cases h0 : n = 0
  · subst h0; simp
  · rw [if_neg h0]
    exact natCharsF_ne_nil _ _ h0
      (lt_of_lt_of_le (Nat.lt_pow_self (by norm_num) n)
        (Nat.pow_le_pow_right (by norm_num) (by omega)))

theorem natChars_head (n : Nat) (h0 : n ≠ 0) :
    ∀ c, (natChars n).head? = some c → c ≠ '0' ∧ c.isDigit = true := by
  rw [natChars, if_neg h0]
  exact natCharsF_head _ _ h0
    (lt_of_lt_of_le (Nat.lt_pow_self (by norm_num) n)
      (Nat.pow_le_pow_right (by norm_num) (by omega)))

theorem takeWhile_all_append (p : Char → Bool) (ds rest : Chars)
    (hds : ∀ c ∈ ds, p c = true)
    (hrest : ∀ c, rest.head? = some c → p c = false) :
    (ds ++ rest).takeWhile p = ds ∧ (ds ++ rest).dropWhile p = rest := by
  induction ds with
  | nil =>
    constructor
    · cases rest with
      | nil => rfl
      | cons c cs => simp [List.takeWhile_cons, hrest c rfl]
    · exact dropWhile_head_false p rest hrest
  | cons c ds ih =>
    obtain ⟨iht, ihd⟩ := ih (fun c hc => hds c (by simp [hc]))
    constructor
    · rw [List.cons_append, List.takeWhile_cons, if_pos (hds c (by simp)), iht]
    · rw [List.cons_append, List.dropWhile_cons, if_pos (hds c (by simp)), ihd]

/-! ### Number normalisation and round trip -/

/-- A character that could extend a JSON number literal. -/
def numBody (c : Char) : Bool := c.isDigit || c == '.' || c == 'e' || c == 'E'

/-- The text following a printed number must not extend it. -/
def numBoundary : Chars → Bool
  | [] => true
  | c :: _ => !(numBody c)

theorem normFloatF_exact : ∀ f m (e : Int) (k : Nat), m ≠ 0 → m % 10 ≠ 0 →
    m * 10 ^ k < f → normFloatF f (m * 10 ^ k) (e - k) = (m, e) := by
  intro f m e k
  induction k generalizing f e with
  | zero =>
    intro h0 h10 hf
    simp only [pow_zero, Nat.mul_one] at hf ⊢
    cases f with
    | zero => omega
    | succ f' =>
      rw [normFloatF, if_neg h0, if_neg h10]
      simp
  | succ k ih =>
    intro h0 h10 hf
    have hx : 1 ≤ m * 10 ^ k :=
      Nat.one_le_iff_ne_zero.mpr (Nat.mul_ne_zero h0 (pow_ne_zero _ (by norm_num)))
    rw [pow_succ, ← Nat.mul_assoc] at hf ⊢
    cases f with
    | zero => omega
    | succ f' =>
      have hne : m * 10 ^ k * 10 ≠ 0 := by
        exact Nat.mul_ne_zero (Nat.mul_ne_zero h0 (pow_ne_zero _ (by norm_num)))
          (by norm_num)
      rw [normFloatF, if_neg hne, if_pos (Nat.mul_mod_left _ 10),
        Nat.mul_div_cancel _ (by norm_num : (0:Nat) < 10)]
      have he : (e : Int) - (k + 1 : Nat) + 1 = e - k := by push_cast; ring
      rw [he]
      exact ih f' e h0 h10 (by omega)

theorem normFloat_exact (m : Nat) (e : Int) (k : Nat) (h0 : m ≠ 0)
    (h10 : m % 10 ≠ 0) : normFloat (m * 10 ^ k) (e - k) = (m, e) :=
  normFloatF_exact _ _ _ _ h0 h10 (Nat.lt_succ_self _)

theorem mkFloat_exact (sgn : Bool) (m : Nat) (e : Int) (k : Nat) (h0 : m ≠ 0)
    (h10 : m % 10 ≠ 0) :
    mkFloat sgn (m * 10 ^ k) (e - k) = ⟨false, sgn, m, e⟩ := by
  rw [mkFloat, normFloat_exact m e k h0 h10]
  simp [h0]

theorem mkFloat_zero (sgn : Bool) (e : Int) :
    mkFloat sgn 0 e = ⟨false, false, 0, 0⟩ := by
  rw [mkFloat]
  simp [normFloat, normFloatF]

theorem isDigit_dash_false (c : Char) (h : c.isDigit = true) :
    (c == '-') = false := by
  cases hc : (c == '-') with
  | false => rfl
  | true =>
    rw [beq_iff_eq] at hc
    subst hc
    exact absurd h (by decide)

theorem isDigit_dot_false (c : Char) (h : c.isDigit = true) : c ≠ '.' := by
  intro hc; subst hc; exact absurd h (by decide)

/-- Fallback branch of `parseFracPart` when no fraction follows. -/
theorem parseFracPart_no_frac (sgn : Bool) (iv : Nat) (r : Chars)
    (h : numBoundary r = true) :
    parseFracPart sgn iv r = parseExpPart sgn iv 0 false r := by
  cases r with
  | nil => rfl
  | cons c r2 =>
    have hc : c ≠ '.' := by
      simp only [numBoundary, numBody, Bool.not_eq_true', Bool.or_eq_false_iff,
        beq_eq_false_iff_ne] at h
      exact h.1.1.2
    rw [parseFracPart.eq_def]
    split
    · rename_i r2' heq
      obtain ⟨h1, -⟩ := List.cons.inj heq
      exact absurd h1 hc
    · rfl

/-- Fallback branch of `parseExpPart` when no exponent follows. -/
theorem parseExpPart_no_exp (sgn : Bool) (mant : Nat) (e0 : Int) (isFl : Bool)
    (r : Chars) (h : numBoundary r = true) :
    parseExpPart sgn mant e0 isFl r
      = some (if isFl then mkFloat sgn mant e0 else mkInt sgn mant, r) := by
  cases r with
  | nil => rfl
  | cons c r2 =>
    simp only [numBoundary, numBody, Bool.not_eq_true', Bool.or_eq_false_iff]
      at h
    rw [parseExpPart.eq_def]
    split
    · rename_i c' cs' heq
      obtain ⟨hc, hcs⟩ := List.cons.inj heq
      subst hc
      subst hcs
      rw [if_neg (by simp [h.1.2, h.2])]
    · rename_i heq
      exact absurd heq (by simp)

theorem parseIntPart_zero (sgn : Bool) (rest : Chars) :
    parseIntPart sgn ('0' :: rest) = parseFracPart sgn 0 rest := by
  rw [parseIntPart]
  norm_num

theorem parseIntPart_digits (sgn : Bool) (ds rest : Chars)
    (hds : ∀ c ∈ ds, c.isDigit = true)
    (hhead : ∀ c, ds.head? = some c → c ≠ '0')
    (hne : ds ≠ [])
    (hrest : ∀ c, rest.head? = some c → c.isDigit = false) :
    parseIntPart sgn (ds ++ rest) = parseFracPart sgn (digitsVal ds) rest := by
  obtain ⟨d, t, rfl⟩ : ∃ d t, ds = d :: t := by
    cases ds with
    | nil => exact absurd rfl hne
    | cons d t => exact ⟨d, t, rfl⟩
  have hd : d.isDigit = true := hds d (by simp)
  have hd0 : d ≠ '0' := hhead d rfl
  rw [List.cons_append, parseIntPart, if_neg (by simp [hd0]), if_pos hd]
  obtain ⟨ht, hdr⟩ := takeWhile_all_append Char.isDigit (d :: t) rest hds hrest
  rw [List.cons_append] at ht hdr
  rw [ht, hdr]

theorem frac_digits_shape (sgn : Bool) (iv : Nat) (fd rest : Chars)
    (hfd : ∀ c ∈ fd, c.isDigit = true) (hne : fd ≠ [])
    (hrest : numBoundary rest = true) :
    parseFracPart sgn iv ('.' :: (fd ++ rest))
      = some (mkFloat sgn (iv * 10 ^ fd.length + digitsVal fd)
          (-(fd.length : Int)), rest) := by
  have hrd : ∀ c, rest.head? = some c → c.isDigit = false := by
    intro c hc
    cases rest with
    | nil => simp at hc
    | cons r rs =>
      simp only [List.head?_cons, Option.some.injEq] at hc
      subst hc
      simp only [numBoundary, numBody, Bool.not_eq_true', Bool.or_eq_false_iff]
        at hrest
      exact hrest.1.1.1
  have ht : List.takeWhile Char.isDigit (fd ++ rest) = fd :=
    (takeWhile_all_append Char.isDigit fd rest hfd hrd).1
  simp only [parseFracPart, ht, List.drop_left]
  rw [if_neg (by simp [List.isEmpty_iff, hne])]
  rw [parseExpPart_no_exp _ _ _ _ _ hrest]
  simp

theorem numBoundary_no_digit (rest : Chars) (h : numBoundary rest = true) :
    ∀ c, rest.head? = some c → c.isDigit = false := by
  intro c hc
  cases rest with
  | nil => simp at hc
  | cons r rs =>
    simp only [List.head?_cons, Option.some.injEq] at hc
    subst hc
    simp only [numBoundary, numBody, Bool.not_eq_true', Bool.or_eq_false_iff]
      at h
    exact h.1.1.1

theorem numNormal_zero_elim (isI neg : Bool) (exp : Int)
    (h : numNormal ⟨isI, neg, 0, exp⟩ = true) : neg = false ∧ exp = 0 := by
  cases neg with
  | false =>
    refine ⟨rfl, ?_⟩
    simpa [numNormal] using h
  | true => simp [numNormal] at h

theorem numNormal_int_elim (neg : Bool) (mant : Nat) (exp : Int)
    (hm : mant ≠ 0) (h : numNormal ⟨true, neg, mant, exp⟩ = true) :
    exp = 0 := by
  simpa [numNormal, hm] using h

theorem numNormal_float_elim (neg : Bool) (mant : Nat) (exp : Int)
    (hm : mant ≠ 0) (h : numNormal ⟨false, neg, mant, exp⟩ = true) :
    mant % 10 ≠ 0 := by
  simpa [numNormal, hm] using h

theorem parseNumber_shape (sgn : Bool) (body rest : Chars)
    (hhead : ∀ c, body.head? = some c → c.isDigit = true) (hne : body ≠ []) :
    parseNumber (((if sgn then ['-'] else []) ++ body) ++ rest)
      = parseIntPart sgn (body ++ rest) := by
  obtain ⟨d, t, rfl⟩ : ∃ d t, body = d :: t := by
    cases body with
    | nil => exact absurd rfl hne
    | cons d t => exact ⟨d, t, rfl⟩
  cases sgn with
  | true =>
    show parseNumber ('-' :: (d :: (t ++ rest))) = _
    simp [parseNumber]
  | false =>
    show parseNumber (d :: (t ++ rest)) = parseIntPart false (d :: (t ++ rest))
    simp only [parseNumber]
    rw [if_neg (by simp [isDigit_dash_false d (hhead d rfl)])]

theorem mkInt_eval (sgn : Bool) (m : Nat) (hm : m ≠ 0) :
    mkInt sgn m = ⟨true, sgn, m, 0⟩ := by
  simp [mkInt, hm]

theorem mkFloat_self (sgn : Bool) (m : Nat) (e : Int) (h0 : m ≠ 0)
    (h10 : m % 10 ≠ 0) : mkFloat sgn m e = ⟨false, sgn, m, e⟩ := by
  simpa using mkFloat_exact sgn m e 0 h0 h10

theorem head_take_pos (ds : Chars) (j : Nat) (hj : 0 < j) :
    (ds.take j).head? = ds.head? := by
  cases ds with
  | nil => simp
  | cons d t =>
    obtain ⟨j', rfl⟩ : ∃ j', j = j' + 1 := ⟨j - 1, by omega⟩
    simp [List.take_succ_cons]

theorem parseNumber_round (n : JNum) (hn : numNormal n = true) (rest : Chars)
    (hrest : numBoundary rest = true) :
    parseNumber (numChars n ++ rest) = some (n, rest) := by
  obtain ⟨isInt, neg, mant, exp⟩ := n
  have hrd := numBoundary_no_digit rest hrest
  have hdot : ∀ (x : Chars) c, ('.' :: x).head? = some c → c.isDigit = false := by
    intro x c hc
    simp only [List.head?_cons, Option.some.injEq] at hc
    subst hc
    rfl
  cases isInt with
  | true =>
    by_cases hm : mant = 0
    · subst hm
      obtain ⟨hneg, hexp⟩ := numNormal_zero_elim _ _ _ hn
      subst hneg
      subst hexp
      trans (parseIntPart false (natChars 0 ++ rest))
      · exact parseNumber_shape false (natChars 0) rest
          (fun c hc => natChars_digits 0 c (List.mem_of_mem_head? hc))
          (natChars_ne_nil 0)
      · show parseIntPart false ('0' :: rest) = _
        rw [parseIntPart_zero, parseFracPart_no_frac _ _ _ hrest,
          parseExpPart_no_exp _ _ _ _ _ hrest]
        rfl
    · obtain rfl : exp = 0 := numNormal_int_elim _ _ _ hm hn
      trans (parseIntPart neg (natChars mant ++ rest))
      · exact parseNumber_shape neg (natChars mant) rest
          (fun c hc => natChars_digits mant c (List.mem_of_mem_head? hc))
          (natChars_ne_nil mant)
      · rw [parseIntPart_digits neg (natChars mant) rest
          (natChars_digits mant)
          (fun c hc => (natChars_head mant hm c hc).1) (natChars_ne_nil mant)
          hrd]
        rw [natChars_digitsVal, parseFracPart_no_frac _ _ _ hrest,
          parseExpPart_no_exp _ _ _ _ _ hrest]
        rw [if_neg (by simp), mkInt_eval neg mant hm]
  | false =>
    by_cases hm : mant = 0
    · subst hm
      obtain ⟨hneg, hexp⟩ := numNormal_zero_elim _ _ _ hn
      subst hneg
      subst hexp
      trans (parseIntPart false (['0', '.', '0'] ++ rest))
      · exact parseNumber_shape false ['0', '.', '0'] rest
          (by intro c hc; simp only [List.head?_cons, Option.some.injEq] at hc
              subst hc; rfl) (by simp)
      · show parseIntPart false ('0' :: ('.' :: (['0'] ++ rest))) = _
        rw [parseIntPart_zero,
          frac_digits_shape false 0 ['0'] rest (by decide) (by simp) hrest]
        rw [show (0 : Nat) * 10 ^ ([('0' : Char)].length) + digitsVal ['0']
            = 0 from rfl]
        rw [mkFloat_zero]
    · have h10 : mant % 10 ≠ 0 := numNormal_float_elim _ _ _ hm hn
      have hdshape : ∀ c, (natChars mant).head? = some c → c.isDigit = true :=
        fun c hc => natChars_digits mant c (List.mem_of_mem_head? hc)
      by_cases he : 0 ≤ exp
      · -- body: mant digits, then exp.toNat zeros, then ".0"
        have hE : ((exp.toNat : Nat) : Int) = exp := Int.toNat_of_nonneg he
        have hbody : numChars ⟨false, neg, mant, exp⟩
            = (if neg then ['-'] else [])
              ++ (natChars mant ++ List.replicate exp.toNat '0'
                ++ ['.', '0']) := by
          simp [numChars, floatBodyChars, he]
        rw [hbody]
        have hds : natChars mant ++ List.replicate exp.toNat '0' ≠ [] := by
          simp [natChars_ne_nil mant]
        trans (parseIntPart neg
          ((natChars mant ++ List.replicate exp.toNat '0' ++ ['.', '0'])
            ++ rest))
        · exact parseNumber_shape neg _ rest
            (by
              intro c hc
              rw [List.head?_append_of_ne_nil _ (by simp [natChars_ne_nil mant] :
                  natChars mant ++ List.replicate exp.toNat '0' ≠ [])] at hc
              rw [List.head?_append_of_ne_nil _ (natChars_ne_nil mant)] at hc
              exact hdshape c hc)
            (by simp [natChars_ne_nil mant])
        · have hre : (natChars mant ++ List.replicate exp.toNat '0'
              ++ ['.', '0']) ++ rest
              = (natChars mant ++ List.replicate exp.toNat '0')
                ++ ('.' :: (['0'] ++ rest)) := by
            simp
          rw [hre]
          rw [parseIntPart_digits neg _ _
            (by
              intro c hc
              rcases List.mem_append.mp hc with h | h
              · exact natChars_digits mant c h
              · rw [List.eq_of_mem_replicate h]; rfl)
            (by
              intro c hc
              rw [List.head?_append_of_ne_nil _ (natChars_ne_nil mant)] at hc
              exact (natChars_head mant hm c hc).1)
            hds (hdot _)]
          rw [digitsVal_append, digitsVal_replicate_zero, natChars_digitsVal]
          rw [frac_digits_shape neg _ ['0'] rest (by decide) (by simp) hrest]
          have harith : (mant * 10 ^ (List.replicate exp.toNat '0').length + 0)
              * 10 ^ ([('0' : Char)].length) + digitsVal ['0']
              = mant * 10 ^ (exp.toNat + 1) := by
            rw [show digitsVal ['0'] = 0 from rfl,
              show ([('0' : Char)].length) = 1 from rfl,
              List.length_replicate, pow_one, pow_succ]
            ring
          rw [harith]
          have hexp1 : (-(([('0' : Char)].length : Nat) : Int))
              = exp - ((exp.toNat + 1 : Nat) : Int) := by
            rw [show ([('0' : Char)].length) = 1 from rfl]
            push_cast
            omega
          rw [hexp1, mkFloat_exact neg mant exp (exp.toNat + 1) hm h10]
      · -- negative exponent
        push_neg at he
        have hkpos : 0 < (-exp).toNat := by omega
        have hkexp : (((-exp).toNat : Nat) : Int) = -exp :=
          Int.toNat_of_nonneg (by omega)
        set k := (-exp).toNat with hkdef
        set ds := natChars mant with hdsdef
        by_cases hk : k < ds.length
        · have hbody : numChars ⟨false, neg, mant, exp⟩
              = (if neg then ['-'] else [])
                ++ (ds.take (ds.length - k) ++ ('.' :: ds.drop (ds.length - k))) := by
            simp only [numChars, floatBodyChars, if_neg (not_le.mpr he), hkdef,
              hdsdef, if_pos hk]
            rfl
          rw [hbody]
          have htne : ds.take (ds.length - k) ≠ [] := by
            have : (ds.take (ds.length - k)).length = ds.length - k := by
              simp only [List.length_take]
              omega
            intro hcon
            rw [hcon] at this
            simp at this
            omega
          trans (parseIntPart neg
            ((ds.take (ds.length - k) ++ ('.' :: ds.drop (ds.length - k)))
              ++ rest))
          · exact parseNumber_shape neg _ rest
              (by
                intro c hc
                rw [List.head?_append_of_ne_nil _ htne,
                  head_take_pos _ _ (by omega)] at hc
                exact hdshape c hc)
              (by simp [htne])
          · have hre : (ds.take (ds.length - k)
                ++ ('.' :: ds.drop (ds.length - k))) ++ rest
                = ds.take (ds.length - k)
                  ++ ('.' :: (ds.drop (ds.length - k) ++ rest)) := by
              simp
            rw [hre]
            rw [parseIntPart_digits neg _ _
              (fun c hc => natChars_digits mant c (List.take_subset _ _ hc))
              (by
                intro c hc
                rw [head_take_pos _ _ (by omega)] at hc
                exact (natChars_head mant hm c hc).1)
              htne (hdot _)]
            have hdne : ds.drop (ds.length - k) ≠ [] := by
              have hl : (ds.drop (ds.length - k)).length = k := by
                simp [List.length_drop]
                omega
              intro hcon
              rw [hcon] at hl
              simp at hl
              omega
            rw [frac_digits_shape neg _ _ rest
              (fun c hc => natChars_digits mant c (List.drop_subset _ _ hc))
              hdne hrest]
            have hdl : (ds.drop (ds.length - k)).length = k := by
              simp [List.length_drop]
              omega
            have hval : digitsVal (ds.take (ds.length - k))
                * 10 ^ (ds.drop (ds.length - k)).length
                + digitsVal (ds.drop (ds.length - k)) = mant := by
              rw [← digitsVal_append, List.take_append_drop, hdsdef,
                natChars_digitsVal]
            rw [hval]
            have hexpeq : (-(((ds.drop (ds.length - k)).length : Nat) : Int))
                = exp := by
              rw [hdl]
              omega
            rw [hexpeq, mkFloat_self neg mant exp hm h10]
        · have hbody : numChars ⟨false, neg, mant, exp⟩
              = (if neg then ['-'] else [])
                ++ ('0' :: '.' :: (List.replicate (k - ds.length) '0' ++ ds)) := by
            simp only [numChars, floatBodyChars, if_neg (not_le.mpr he), hkdef,
              hdsdef, if_neg hk]
            rfl
          rw [hbody]
          trans (parseIntPart neg
            (('0' :: '.' :: (List.replicate (k - ds.length) '0' ++ ds)) ++ rest))
          · exact parseNumber_shape neg _ rest
              (by
                intro c hc
                simp only [List.head?_cons, Option.some.injEq] at hc
                subst hc
                rfl)
              (by simp)
          · show parseIntPart neg
              ('0' :: ('.' :: ((List.replicate (k - ds.length) '0' ++ ds) ++ rest)))
                = _
            rw [parseIntPart_zero]
            rw [frac_digits_shape neg _ _ rest
              (by
                intro c hc
                rcases List.mem_append.mp hc with h | h
                · rw [List.eq_of_mem_replicate h]; rfl
                · exact natChars_digits mant c h)
              (by simp [natChars_ne_nil mant]) hrest]
            have hval : (0 : Nat)
                * 10 ^ (List.replicate (k - ds.length) '0' ++ ds).length
                + digitsVal (List.replicate (k - ds.length) '0' ++ ds)
                = mant := by
              rw [digitsVal_append, digitsVal_replicate_zero, hdsdef,
                natChars_digitsVal]
              ring
            rw [hval]
            have hexpeq :
                (-(((List.replicate (k - ds.length) '0' ++ ds).length : Nat) : Int))
                = exp := by
              simp only [List.length_append, List.length_replicate]
              omega
            rw [hexpeq, mkFloat_self neg mant exp hm h10]

set_option maxHeartbeats 4000000
set_option maxRecDepth 100000

/-! ### String escape round trip -/

theorem parseHexDig_hexChar : ∀ d, d < 16 → parseHexDig (hexChar d) = some d := by
  decide

theorem char_valid_nat (c : Char) :
    c.toNat < 0xd800 ∨ (0xe000 ≤ c.toNat ∧ c.toNat < 0x110000) := by
  have h := c.valid
  rcases h with h | h
  · left; exact h
  · right; exact h

theorem parseHex4_hex4 (n : Nat) (hn : n < 0x10000) (tail : Chars) :
    parseHex4 (hex4 n ++ tail) = some (n, tail) := by
  show parseHex4 (hexChar (n / 4096 % 16) :: hexChar (n / 256 % 16)
    :: hexChar (n / 16 % 16) :: hexChar (n % 16) :: tail) = _
  rw [parseHex4, parseHexDig_hexChar _ (by omega),
    parseHexDig_hexChar _ (by omega), parseHexDig_hexChar _ (by omega),
    parseHexDig_hexChar _ (by omega)]
  show some (((n / 4096 % 16 * 16 + n / 256 % 16) * 16 + n / 16 % 16) * 16
    + n % 16, tail) = some (n, tail)
  congr 1
  have e1 : n / 4096 = n / 16 / 16 / 16 := by
    rw [Nat.div_div_eq_div_mul, Nat.div_div_eq_div_mul]
  have e2 : n / 256 = n / 16 / 16 := by rw [Nat.div_div_eq_div_mul]
  rw [e1, e2]
  have k1 : n / 16 / 16 / 16 < 16 := by
    have a1 : n / 16 < 4096 := by omega
    have a2 : n / 16 / 16 < 256 := by omega
    omega
  have k2 : n / 16 / 16 / 16 % 16 = n / 16 / 16 / 16 := Nat.mod_eq_of_lt k1
  rw [k2]
  conv_rhs => rw [← Nat.div_add_mod n 16, ← Nat.div_add_mod (n / 16) 16,
    ← Nat.div_add_mod (n / 16 / 16) 16]
  ring_nf

theorem parseUEscape_single (n : Nat) (hn : n < 0x10000)
    (hns : n < 0xD800 ∨ 0xE000 ≤ n) (tail : Chars) :
    parseUEscape (hex4 n ++ tail) = some (Char.ofNat n, tail) := by
  rw [parseUEscape, parseHex4_hex4 n hn tail]
  show (if 0xD800 ≤ n ∧ n < 0xDC00 then _
    else if 0xDC00 ≤ n ∧ n < 0xE000 then none
    else some (Char.ofNat n, tail)) = some (Char.ofNat n, tail)
  rw [if_neg (by omega), if_neg (by omega)]

theorem parseUEscape_pair (m : Nat) (hm : m < 0x100000) (tail : Chars) :
    parseUEscape (hex4 (0xD800 + m / 0x400)
      ++ ('\\' :: 'u' :: (hex4 (0xDC00 + m % 0x400) ++ tail)))
    = some (Char.ofNat (0x10000 + m), tail) := by
  have hhi : 0xD800 + m / 0x400 < 0x10000 := by omega
  have hmod := Nat.mod_lt m (show 0 < 0x400 by norm_num)
  have hlo : 0xDC00 + m % 0x400 < 0x10000 := by omega
  rw [parseUEscape, parseHex4_hex4 _ hhi]
  split
  · rename_i heq
    exact absurd heq (by simp)
  · rename_i n r2 heq
    rw [Option.some.injEq, Prod.mk.injEq] at heq
    obtain ⟨hn, hr2⟩ := heq
    subst hn
    subst hr2
    rw [if_pos (by constructor <;> omega)]
    split
    · rename_i s1 s2 r3 heq2
      injection heq2 with ha hbc
      injection hbc with hb hc
      subst ha
      subst hb
      subst hc
      rw [if_pos (by decide), parseHex4_hex4 _ hlo]
      split
      · rename_i n2 r4 heq3
        rw [Option.some.injEq, Prod.mk.injEq] at heq3
        obtain ⟨hn2, hr4⟩ := heq3
        subst hn2
        subst hr4
        rw [if_pos (by constructor <;> omega)]
        have harg : 0x10000 + (0xD800 + m / 0x400 - 0xD800) * 0x400
            + (0xDC00 + m % 0x400 - 0xDC00) = 0x10000 + m := by
          have := Nat.div_add_mod m 0x400
          omega
        rw [harg]
      · rename_i heq3
        exact absurd heq3 (by simp)
    · rename_i hne
      exact (hne '\\' 'u' _ rfl).elim

theorem escChar_ne_nil (c : Char) : escChar c ≠ [] := by
  unfold escChar
  split_ifs <;> simp

theorem parseStrBodyF_quote (f : Nat) (cs : Chars) :
    parseStrBodyF (f + 1) ('"' :: cs) = some ([], cs) := by
  simp [parseStrBodyF]

theorem parseStrBodyF_u (f : Nat) (es : Chars) :
    parseStrBodyF (f + 1) ('\\' :: 'u' :: es)
      = match parseUEscape es with
        | some (ch, r) => consCh ch (parseStrBodyF f r)
        | none => none := by
  simp only [parseStrBodyF]
  rw [if_neg (by decide), if_pos (by decide), if_pos (by decide)]
  try rfl

theorem parseStrBodyF_esc (f : Nat) (e : Char) (es : Chars) (he : e ≠ 'u') :
    parseStrBodyF (f + 1) ('\\' :: e :: es)
      = match escCharOf e with
        | some ch => consCh ch (parseStrBodyF f es)
        | none => none := by
  simp only [parseStrBodyF]
  rw [if_neg (by decide), if_pos (by decide), if_neg (by simp [he])]
  try rfl

theorem parseStrBodyF_raw (f : Nat) (c : Char) (cs : Chars) (h1 : c ≠ '"')
    (h2 : c ≠ '\\') (h3 : 0x20 ≤ c.toNat) :
    parseStrBodyF (f + 1) (c :: cs) = consCh c (parseStrBodyF f cs) := by
  simp only [parseStrBodyF]
  rw [if_neg (by simp [h1]), if_neg (by simp [h2]), if_neg (by omega)]

theorem parseStrBodyF_escChar (f : Nat) (c : Char) (tail : Chars) :
    parseStrBodyF (f + 1) (escChar c ++ tail) = consCh c (parseStrBodyF f tail) := by
  by_cases h1 : c = '"'
  · subst h1
    show parseStrBodyF (f + 1) ('\\' :: '"' :: tail) = _
    rw [parseStrBodyF_esc f '"' tail (by decide)]
    rfl
  by_cases h2 : c = '\\'
  · subst h2
    show parseStrBodyF (f + 1) ('\\' :: '\\' :: tail) = _
    rw [parseStrBodyF_esc f '\\' tail (by decide)]
    rfl
  by_cases h3 : c = '\n'
  · subst h3
    show parseStrBodyF (f + 1) ('\\' :: 'n' :: tail) = _
    rw [parseStrBodyF_esc f 'n' tail (by decide)]
    rfl
  by_cases h4 : c = '\r'
  · subst h4
    show parseStrBodyF (f + 1) ('\\' :: 'r' :: tail) = _
    rw [parseStrBodyF_esc f 'r' tail (by decide)]
    rfl
  by_cases h5 : c = '\t'
  · subst h5
    show parseStrBodyF (f + 1) ('\\' :: 't' :: tail) = _
    rw [parseStrBodyF_esc f 't' tail (by decide)]
    rfl
  by_cases h6 : c = '\x08'
  · subst h6
    show parseStrBodyF (f + 1) ('\\' :: 'b' :: tail) = _
    rw [parseStrBodyF_esc f 'b' tail (by decide)]
    rfl
  by_cases h7 : c = '\x0c'
  · subst h7
    show parseStrBodyF (f + 1) ('\\' :: 'f' :: tail) = _
    rw [parseStrBodyF_esc f 'f' tail (by decide)]
    rfl
  have hesc : escChar c
      = if c.toNat < 0x20 ∨ 0x7f ≤ c.toNat then
          if c.toNat < 0x10000 then '\\' :: 'u' :: hex4 c.toNat
          else
            ('\\' :: 'u' :: hex4 (0xD800 + (c.toNat - 0x10000) / 0x400)) ++
              ('\\' :: 'u' :: hex4 (0xDC00 + (c.toNat - 0x10000) % 0x400))
        else [c] := by
    rw [escChar, if_neg (by simp [h1]), if_neg (by simp [h2]),
      if_neg (by simp [h3]), if_neg (by simp [h4]), if_neg (by simp [h5]),
      if_neg (by simp [h6]), if_neg (by simp [h7])]
  have hval := char_valid_nat c
  by_cases h8 : c.toNat < 0x20 ∨ 0x7f ≤ c.toNat
  · rw [hesc, if_pos h8]
    by_cases h9 : c.toNat < 0x10000
    · rw [if_pos h9]
      show parseStrBodyF (f + 1) ('\\' :: 'u' :: (hex4 c.toNat ++ tail)) = _
      rw [parseStrBodyF_u, parseUEscape_single c.toNat h9 (by omega) tail]
      show consCh (Char.ofNat c.toNat) (parseStrBodyF f tail) = _
      rw [Char.ofNat_toNat]
    · rw [if_neg h9]
      have hm : c.toNat - 0x10000 < 0x100000 := by omega
      show parseStrBodyF (f + 1)
        ('\\' :: 'u' :: (hex4 (0xD800 + (c.toNat - 0x10000) / 0x400)
          ++ ('\\' :: 'u' :: (hex4 (0xDC00 + (c.toNat - 0x10000) % 0x400)
            ++ tail)))) = _
      rw [parseStrBodyF_u, parseUEscape_pair _ hm tail]
      have harg : 0x10000 + (c.toNat - 0x10000) = c.toNat := by omega
      rw [harg]
      show consCh (Char.ofNat c.toNat) (parseStrBodyF f tail) = _
      rw [Char.ofNat_toNat]
  · rw [hesc, if_neg h8]
    push_neg at h8
    obtain ⟨hlow, hhigh⟩ := h8
    show parseStrBodyF (f + 1) (c :: tail) = _
    exact parseStrBodyF_raw f c tail h1 h2 hlow

theorem escLen_ge (s : Chars) : s.length ≤ ((s.map escChar).flatten).length := by
  induction s with
  | nil => simp
  | cons c s ih =>
    simp only [List.map_cons, List.flatten_cons, List.length_append,
      List.length_cons]
    have : 1 ≤ (escChar c).length :=
      List.length_pos.mpr (escChar_ne_nil c)
    omega

theorem parseStrBodyF_round : ∀ f s rest, s.length < f →
    parseStrBodyF f ((s.map escChar).flatten ++ ('"' :: rest))
      = some (s, rest) := by
  intro f s
  induction s generalizing f with
  | nil =>
    intro rest hf
    obtain ⟨f', rfl⟩ : ∃ f', f = f' + 1 := ⟨f - 1, by omega⟩
    exact parseStrBodyF_quote f' rest
  | cons c s ih =>
    intro rest hf
    obtain ⟨f', rfl⟩ : ∃ f', f = f' + 1 := ⟨f - 1, by omega⟩
    simp only [List.map_cons, List.flatten_cons, List.append_assoc]
    rw [parseStrBodyF_escChar f' c _, ih f' rest (by simp at hf; omega)]
    rfl

theorem parseStrBody_round (s rest : Chars) :
    parseStrBody ((s.map escChar).flatten ++ ('"' :: rest))
      = some (s, rest) := by
  rw [parseStrBody]
  apply parseStrBodyF_round
  have := escLen_ge s
  simp only [List.length_append, List.length_cons]
  omega

set_option maxHeartbeats 1000000
set_option maxRecDepth 8000

/-! ### Fuel measures for the value parser -/

mutual

def jsize : Json → Nat
  | .null => 1
  | .bool _ => 1
  | .num _ => 1
  | .str _ => 1
  | .arr es => 1 + lsize es
  | .obj ms => 1 + msize ms

def lsize : List Json → Nat
  | [] => 0
  | v :: vs => 1 + max (jsize v) (lsize vs)

def msize : List (Chars × Json) → Nat
  | [] => 0
  | m :: ms => 1 + max (jsize m.2) (msize ms)

end

theorem jsize_pos (v : Json) : 1 ≤ jsize v := by
  cases v <;> simp [jsize]

/-- What may legitimately follow a serialized value inside a dump. -/
def restOkB : Chars → Bool
  | [] => true
  | c :: _ => c == ',' || c == ']' || c == '\x7d' || jsonWsC c

theorem numBoundary_of_restOk (rest : Chars) (h : restOkB rest = true) :
    numBoundary rest = true := by
  cases rest with
  | nil => rfl
  | cons c cs =>
    simp only [restOkB, jsonWsC, Bool.or_eq_true, beq_iff_eq] at h
    rcases h with ((h | h) | h) | (((h | h) | h) | h) <;> subst h <;> rfl

theorem restOk_append (w : Chars) (c : Char) (rest : Chars)
    (hw : w.all jsonWsC = true)
    (hc : (c == ',' || c == ']' || c == '\x7d' || jsonWsC c) = true) :
    restOkB (w ++ c :: rest) = true := by
  cases w with
  | nil => exact hc
  | cons a as =>
    simp only [List.all_cons, Bool.and_eq_true] at hw
    show (a == ',' || a == ']' || a == '\x7d' || jsonWsC a) = true
    rw [hw.1]
    simp

/-- All padding a dump layout emits is JSON whitespace. -/
def padOk (cfg : DumpCfg) : Prop :=
  ∀ d, (cfg.openPad d).all jsonWsC = true ∧ (cfg.sepPad d).all jsonWsC = true ∧
    (cfg.closePad d).all jsonWsC = true

theorem padOk_compact : padOk compactCfg := by
  intro d
  exact ⟨rfl, rfl, rfl⟩

theorem padOk_indent2 : padOk indent2Cfg := by
  intro d
  refine ⟨?_, ?_, ?_⟩ <;>
  · show (('\n' :: List.replicate (2 * d) ' ').all jsonWsC) = true
    simp only [List.all_cons, Bool.and_eq_true]
    refine ⟨by decide, ?_⟩
    rw [List.all_eq_true]
    intro c hc
    rw [List.eq_of_mem_replicate hc]
    rfl

/-! ### Whitespace invariance of the parsers -/

theorem skipWs_all_append (w l : Chars) (hw : w.all jsonWsC = true) :
    skipWs (w ++ l) = skipWs l :=
  dropWhile_all_append _ _ _ (by simpa [List.all_eq_true] using hw)

theorem skipWs_cons (c : Char) (cs : Chars) (h : jsonWsC c = false) :
    skipWs (c :: cs) = c :: cs :=
  dropWhile_head_false _ _ (by intro c' hc'; simp only [List.head?_cons,
    Option.some.injEq] at hc'; subst hc'; exact h)

theorem parseValue_ws (f : Nat) (w l : Chars) (hw : w.all jsonWsC = true) :
    parseValue f (w ++ l) = parseValue f l := by
  cases f with
  | zero => rfl
  | succ f =>
    simp only [parseValue]
    rw [skipWs_all_append w l hw]

theorem parseMembers_ws (f : Nat) (w l : Chars) (hw : w.all jsonWsC = true) :
    parseMembers f (w ++ l) = parseMembers f l := by
  cases f with
  | zero => rfl
  | succ f =>
    simp only [parseMembers]
    rw [skipWs_all_append w l hw]

theorem parseElems_ws (f : Nat) (w l : Chars) (hw : w.all jsonWsC = true) :
    parseElems f (w ++ l) = parseElems f l := by
  cases f with
  | zero => rfl
  | succ f =>
    simp only [parseElems]
    rw [parseValue_ws f w l hw]

theorem parseValue_sp (f : Nat) (l : Chars) :
    parseValue f (' ' :: l) = parseValue f l := by
  cases f <;> rfl

/-! ### One-step dispatch equations for the value parser -/

theorem parseValue_null (f : Nat) (rest : Chars) :
    parseValue (f + 1) ('n' :: 'u' :: 'l' :: 'l' :: rest)
      = some (Json.null, rest) := rfl

theorem parseValue_true (f : Nat) (rest : Chars) :
    parseValue (f + 1) ('t' :: 'r' :: 'u' :: 'e' :: rest)
      = some (Json.bool true, rest) := rfl

theorem parseValue_false (f : Nat) (rest : Chars) :
    parseValue (f + 1) ('f' :: 'a' :: 'l' :: 's' :: 'e' :: rest)
      = some (Json.bool false, rest) := rfl

theorem parseValue_str (f : Nat) (cs : Chars) :
    parseValue (f + 1) ('"' :: cs)
      = match parseStrBody cs with
        | some (s, r) => some (Json.str s, r)
        | none => none := rfl

theorem parseValue_obrace (f : Nat) (cs : Chars) :
    parseValue (f + 1) ('\x7b' :: cs)
      = match skipWs cs with
        | '\x7d' :: r => some (Json.obj [], r)
        | r' =>
          match parseMembers f r' with
          | some (ms, r) => some (Json.obj (buildDict ms), r)
          | none => none := rfl

theorem parseValue_obracket (f : Nat) (cs : Chars) :
    parseValue (f + 1) ('[' :: cs)
      = match skipWs cs with
        | ']' :: r => some (Json.arr [], r)
        | r' =>
          match parseElems f r' with
          | some (es, r) => some (Json.arr es, r)
          | none => none := rfl

theorem parseValue_numHead (f : Nat) (c : Char) (cs : Chars)
    (h : c ∈ ['-', '0', '1', '2', '3', '4', '5', '6', '7', '8', '9']) :
    parseValue (f + 1) (c :: cs)
      = match parseNumber (c :: cs) with
        | some (n, r) => some (Json.num n, r)
        | none => none := by
  fin_cases h <;> rfl

theorem parseMembers_quote (f : Nat) (cs : Chars) :
    parseMembers (f + 1) ('"' :: cs)
      = match parseStrBody cs with
        | some (k, r1) =>
          match skipWs r1 with
          | ':' :: r2 =>
            match parseValue f r2 with
            | some (v, r3) =>
              match skipWs r3 with
              | ',' :: r4 =>
                match parseMembers f r4 with
                | some (ms, r5) => some ((k, v) :: ms, r5)
                | none => none
              | '\x7d' :: r4 => some ([(k, v)], r4)
              | _ => none
            | none => none
          | _ => none
        | none => none := rfl

theorem parseMembers_step (f : Nat) (k : Chars) (bodyTail : Chars) :
    parseMembers (f + 1)
      ('"' :: ((k.map escChar).flatten ++ ('"' :: ':' :: ' ' :: bodyTail)))
      = match parseValue f (' ' :: bodyTail) with
        | some (v, r3) =>
          match skipWs r3 with
          | ',' :: r4 =>
            match parseMembers f r4 with
            | some (ms, r5) => some ((k, v) :: ms, r5)
            | none => none
          | '\x7d' :: r4 => some ([(k, v)], r4)
          | _ => none
        | none => none := by
  rw [parseMembers_quote, parseStrBody_round k (':' :: ' ' :: bodyTail)]
  rfl

theorem parseElems_succ (f : Nat) (l : Chars) :
    parseElems (f + 1) l
      = match parseValue f l with
        | some (v, r1) =>
          match skipWs r1 with
          | ',' :: r2 =>
            match parseElems f r2 with
            | some (es, r3) => some (v :: es, r3)
            | none => none
          | ']' :: r2 => some ([v], r2)
          | _ => none
        | none => none := rfl

/-! ### Head shapes of serialized values -/

theorem isDigit_mem (c : Char) (h : c.isDigit = true) :
    c ∈ ['0', '1', '2', '3', '4', '5', '6', '7', '8', '9'] := by
  have hb : 48 ≤ c.toNat ∧ c.toNat ≤ 57 := by
    simp [Char.isDigit] at h
    exact ⟨h.1, h.2⟩
  have hc : Char.ofNat c.toNat = c := Char.ofNat_toNat c
  obtain ⟨h1, h2⟩ := hb
  have hd : c.toNat = 48 ∨ c.toNat = 49 ∨ c.toNat = 50 ∨ c.toNat = 51 ∨
      c.toNat = 52 ∨ c.toNat = 53 ∨ c.toNat = 54 ∨ c.toNat = 55 ∨
      c.toNat = 56 ∨ c.toNat = 57 := by omega
  rcases hd with h | h | h | h | h | h | h | h | h | h <;>
    rw [h] at hc <;> rw [← hc] <;> decide

theorem digit_mem_numHead (c : Char) (h : c.isDigit = true) :
    c ∈ ['-', '0', '1', '2', '3', '4', '5', '6', '7', '8', '9'] := by
  have := isDigit_mem c h
  simp only [List.mem_cons] at this ⊢
  tauto

theorem natChars_shape (n : Nat) :
    ∃ c t, natChars n = c :: t ∧ c.isDigit = true := by
  cases hcs : natChars n with
  | nil => exact absurd hcs (natChars_ne_nil n)
  | cons c t =>
    exact ⟨c, t, rfl, natChars_digits n c (by rw [hcs]; simp)⟩

theorem floatBodyChars_shape (m : Nat) (e : Int) :
    ∃ c t, floatBodyChars m e = c :: t ∧ c.isDigit = true := by
  rw [floatBodyChars]
  by_cases he : 0 ≤ e
  · rw [if_pos he]
    obtain ⟨c, t, hct, hd⟩ := natChars_shape m
    refine ⟨c, (t ++ List.replicate e.toNat '0') ++ ['.', '0'], ?_, hd⟩
    rw [hct]
    rfl
  · rw [if_neg he]
    show ∃ c t, (if (-e).toNat < (natChars m).length then
        (natChars m).take ((natChars m).length - (-e).toNat) ++
          '.' :: (natChars m).drop ((natChars m).length - (-e).toNat)
      else '0' :: '.' :: (List.replicate ((-e).toNat - (natChars m).length) '0'
        ++ natChars m)) = c :: t ∧ c.isDigit = true
    by_cases hk : (-e).toNat < (natChars m).length
    · rw [if_pos hk]
      obtain ⟨c, t, hct, hd⟩ := natChars_shape m
      rw [hct, List.length_cons] at hk
      refine ⟨c, List.take (t.length - (-e).toNat) t ++
        '.' :: List.drop (t.length - (-e).toNat) t, ?_, hd⟩
      rw [hct, List.length_cons,
        show t.length + 1 - (-e).toNat = (t.length - (-e).toNat) + 1 from by
          omega]
      rfl
    · rw [if_neg hk]
      exact ⟨'0', _, rfl, by decide⟩

theorem numChars_shape (n : JNum) :
    ∃ c t, numChars n = c :: t ∧
      c ∈ ['-', '0', '1', '2', '3', '4', '5', '6', '7', '8', '9'] := by
  rw [numChars]
  cases hneg : n.neg with
  | true => exact ⟨'-', _, rfl, by decide⟩
  | false =>
    cases hint : n.isInt with
    | true =>
      obtain ⟨c, t, hct, hd⟩ := natChars_shape n.mant
      refine ⟨c, t, ?_, digit_mem_numHead c hd⟩
      show natChars n.mant = c :: t
      exact hct
    | false =>
      obtain ⟨c, t, hct, hd⟩ := floatBodyChars_shape n.mant n.exp
      refine ⟨c, t, ?_, digit_mem_numHead c hd⟩
      show floatBodyChars n.mant n.exp = c :: t
      exact hct

theorem numHead_facts : ∀ c ∈ ['-', '0', '1', '2', '3', '4', '5', '6', '7',
    '8', '9'], jsonWsC c = false ∧ (c == ']') = false ∧
    (c == '\x7d') = false := by decide

theorem dumpVal_shape (cfg : DumpCfg) (d : Nat) (v : Json) :
    ∃ c t, dumpVal cfg d v = c :: t ∧ jsonWsC c = false ∧
      (c == ']') = false ∧ (c == '\x7d') = false := by
  cases v with
  | null => exact ⟨'n', _, rfl, rfl, rfl, rfl⟩
  | bool b =>
    cases b with
    | false => exact ⟨'f', _, rfl, rfl, rfl, rfl⟩
    | true => exact ⟨'t', _, rfl, rfl, rfl, rfl⟩
  | num n =>
    obtain ⟨c, t, hct, hmem⟩ := numChars_shape n
    obtain ⟨hf1, hf2, hf3⟩ := numHead_facts c hmem
    refine ⟨c, t, ?_, hf1, hf2, hf3⟩
    show numChars n = c :: t
    exact hct
  | str s => exact ⟨'"', _, rfl, rfl, rfl, rfl⟩
  | arr es =>
    cases es with
    | nil => exact ⟨'[', _, rfl, rfl, rfl, rfl⟩
    | cons v vs => exact ⟨'[', _, rfl, rfl, rfl, rfl⟩
  | obj ms =>
    cases ms with
    | nil => exact ⟨'\x7b', _, rfl, rfl, rfl, rfl⟩
    | cons m ms => exact ⟨'\x7b', _, rfl, rfl, rfl, rfl⟩

theorem dumpItems_shape (cfg : DumpCfg) (d : Nat) (v : Json) (vs : List Json) :
    ∃ c t, dumpItems cfg d (v :: vs) = c :: t ∧ jsonWsC c = false ∧
      (c == ']') = false ∧ (c == '\x7d') = false := by
  obtain ⟨c, t, hct, h1, h2, h3⟩ := dumpVal_shape cfg d v
  cases vs with
  | nil =>
    refine ⟨c, t, ?_, h1, h2, h3⟩
    simp only [dumpItems]
    exact hct
  | cons v2 vs' =>
    refine ⟨c, (t ++ (',' :: cfg.sepPad d)) ++ dumpItems cfg d (v2 :: vs'),
      ?_, h1, h2, h3⟩
    simp only [dumpItems]
    rw [hct]
    rfl

theorem dumpMembers_shape (cfg : DumpCfg) (d : Nat) (m : Chars × Json)
    (ms : List (Chars × Json)) :
    ∃ t, dumpMembers cfg d (m :: ms) = '"' :: t := by
  cases ms with
  | nil => exact ⟨_, rfl⟩
  | cons m2 ms' => exact ⟨_, rfl⟩

/-! ### `buildDict` is the identity on duplicate-free member lists -/

theorem insertPair_fresh (ms : List (Chars × Json)) (k : Chars) (v : Json)
    (h : ∀ p ∈ ms, p.1 ≠ k) : insertPair ms k v = ms ++ [(k, v)] := by
  induction ms with
  | nil => rfl
  | cons m ms ih =>
    obtain ⟨k', v'⟩ := m
    rw [insertPair, if_neg (h (k', v') (by simp))]
    rw [ih (fun p hp => h p (by simp [hp]))]
    rfl

theorem keysNoDup_cons (k : Chars) (ks : List Chars)
    (h : keysNoDup (k :: ks) = true) :
    (∀ k' ∈ ks, k' ≠ k) ∧ keysNoDup ks = true := by
  rw [keysNoDup, Bool.and_eq_true] at h
  refine ⟨?_, h.2⟩
  intro k' hk' heq
  subst heq
  have hmem : ks.contains k' = true := List.elem_iff.mpr hk'
  rw [hmem] at h
  simpa using h.1

theorem buildDict_go (ms : List (Chars × Json)) :
    ∀ acc, keysNoDup (ms.map Prod.fst) = true →
    (∀ p ∈ ms, ∀ q ∈ acc, (q : Chars × Json).1 ≠ p.1) →
    ms.foldl (fun a kv => insertPair a kv.1 kv.2) acc = acc ++ ms := by
  induction ms with
  | nil =>
    intro acc _ _
    simp
  | cons m ms ih =>
    intro acc hnd hdisj
    obtain ⟨k, v⟩ := m
    rw [List.map_cons] at hnd
    obtain ⟨hfresh, hnd'⟩ := keysNoDup_cons _ _ hnd
    rw [List.foldl_cons]
    have hins : insertPair acc k v = acc ++ [(k, v)] :=
      insertPair_fresh acc k v (fun q hq => hdisj (k, v) (by simp) q hq)
    rw [hins, ih (acc ++ [(k, v)]) hnd' ?disj]
    · simp
    case disj =>
      intro p hp q hq
      rcases List.mem_append.mp hq with hq | hq
      · exact hdisj p (by simp [hp]) q hq
      · have hqe : q = (k, v) := by simpa using hq
        subst hqe
        exact (hfresh p.1 (List.mem_map_of_mem Prod.fst hp)).symm

theorem buildDict_self (ms : List (Chars × Json))
    (h : keysNoDup (ms.map Prod.fst) = true) : buildDict ms = ms := by
  rw [buildDict, buildDict_go ms [] h (by simp)]
  rfl

theorem msize_cons_lo (k : Chars) (v : Json) (ms : List (Chars × Json)) :
    jsize v + 1 ≤ msize ((k, v) :: ms) := by
  simp only [msize]
  have := le_max_left (jsize v) (msize ms)
  omega

theorem msize_cons_hi (k : Chars) (v : Json) (ms : List (Chars × Json)) :
    msize ms + 1 ≤ msize ((k, v) :: ms) := by
  simp only [msize]
  have := le_max_right (jsize v) (msize ms)
  omega

theorem lsize_cons_lo (v : Json) (vs : List Json) :
    jsize v + 1 ≤ lsize (v :: vs) := by
  simp only [lsize]
  have := le_max_left (jsize v) (lsize vs)
  omega

theorem lsize_cons_hi (v : Json) (vs : List Json) :
    lsize vs + 1 ≤ lsize (v :: vs) := by
  simp only [lsize]
  have := le_max_right (jsize v) (lsize vs)
  omega

theorem jsize_arr (es : List Json) : lsize es + 1 ≤ jsize (Json.arr es) := by
  simp [jsize]
  omega

theorem jsize_obj (ms : List (Chars × Json)) :
    msize ms + 1 ≤ jsize (Json.obj ms) := by
  simp [jsize]
  omega

/-! ### The round trip: parsing a serialized value recovers it -/

theorem parse_dump_round (cfg : DumpCfg) (hpad : padOk cfg) : ∀ f,
    (∀ v d rest, wfJ v = true → restOkB rest = true → jsize v ≤ f →
      parseValue f (dumpVal cfg d v ++ rest) = some (v, rest)) ∧
    (∀ ms d w rest, wfMembers ms = true → ms ≠ [] → w.all jsonWsC = true →
      restOkB rest = true → msize ms ≤ f →
      parseMembers f (dumpMembers cfg d ms ++ (w ++ '\x7d' :: rest))
        = some (ms, rest)) ∧
    (∀ vs d w rest, wfItems vs = true → vs ≠ [] → w.all jsonWsC = true →
      restOkB rest = true → lsize vs ≤ f →
      parseElems f (dumpItems cfg d vs ++ (w ++ ']' :: rest))
        = some (vs, rest)) := by
  intro f
  induction f with
  | zero =>
    refine ⟨?_, ?_, ?_⟩
    · intro v d rest _ _ hsz
      exact absurd hsz (by have := jsize_pos v; omega)
    · intro ms d w rest _ hne _ _ hsz
      cases ms with
      | nil => exact absurd rfl hne
      | cons m ms' =>
        obtain ⟨k, v⟩ := m
        exact absurd hsz (by have := msize_cons_lo k v ms'; omega)
    · intro vs d w rest _ hne _ _ hsz
      cases vs with
      | nil => exact absurd rfl hne
      | cons v vs' =>
        exact absurd hsz (by have := lsize_cons_lo v vs'; omega)
  | succ f ih =>
    obtain ⟨ihP, ihQ, ihR⟩ := ih
    refine ⟨?_, ?_, ?_⟩
    · -- values
      intro v d rest hwf hrest hsz
      cases v with
      | null => exact parseValue_null f rest
      | bool b =>
        cases b with
        | true => exact parseValue_true f rest
        | false => exact parseValue_false f rest
      | num n =>
        simp only [wfJ] at hwf
        obtain ⟨c, t, hct, hmem⟩ := numChars_shape n
        show parseValue (f + 1) (numChars n ++ rest) = some (Json.num n, rest)
        rw [hct, List.cons_append, parseValue_numHead f c _ hmem]
        rw [show c :: (t ++ rest) = numChars n ++ rest from by
          rw [hct, List.cons_append]]
        rw [parseNumber_round n hwf rest (numBoundary_of_restOk rest hrest)]
      | str s =>
        simp only [dumpVal, dumpStr, List.cons_append, List.append_assoc,
          List.nil_append]
        rw [parseValue_str f _, parseStrBody_round s rest]
      | arr es =>
        cases es with
        | nil => exact rfl
        | cons v vs =>
          simp only [wfJ] at hwf
          simp only [dumpVal, List.cons_append, List.append_assoc,
            List.nil_append]
          rw [parseValue_obracket f _]
          rw [skipWs_all_append _ _ (hpad (d + 1)).1]
          obtain ⟨c, t, hct, h1, h2, h3⟩ := dumpItems_shape cfg (d + 1) v vs
          rw [hct, List.cons_append, skipWs_cons _ _ h1]
          split
          · rename_i r heq
            injection heq with hc _
            exact absurd hc (by simpa using h2)
          · rw [← List.cons_append, ← hct,
              ihR (v :: vs) (d + 1) (cfg.closePad d) rest hwf (by simp)
                (hpad d).2.2 hrest
                (by have := jsize_arr (v :: vs); omega)]
      | obj ms =>
        cases ms with
        | nil => exact rfl
        | cons m ms' =>
          simp only [wfJ, Bool.and_eq_true] at hwf
          obtain ⟨hnd, hwfm⟩ := hwf
          simp only [dumpVal, List.cons_append, List.append_assoc,
            List.nil_append]
          rw [parseValue_obrace f _]
          rw [skipWs_all_append _ _ (hpad (d + 1)).1]
          obtain ⟨t, ht⟩ := dumpMembers_shape cfg (d + 1) m ms'
          rw [ht, List.cons_append, skipWs_cons _ _ (by decide)]
          split
          · rename_i r heq
            injection heq with hc _
            exact absurd hc (by decide)
          · rw [← List.cons_append, ← ht,
              ihQ (m :: ms') (d + 1) (cfg.closePad d) rest hwfm (by simp)
                (hpad d).2.2 hrest
                (by have := jsize_obj (m :: ms'); omega)]
            show some (Json.obj (buildDict (m :: ms')), rest)
              = some (Json.obj (m :: ms'), rest)
            rw [buildDict_self (m :: ms') hnd]
    · -- members
      intro ms d w rest hwf hne hw hrest hsz
      cases ms with
      | nil => exact absurd rfl hne
      | cons m ms' =>
        obtain ⟨k, v⟩ := m
        simp only [wfMembers, Bool.and_eq_true] at hwf
        obtain ⟨hwfv, hwfm'⟩ := hwf
        cases ms' with
        | nil =>
          simp only [dumpMembers, dumpStr, List.cons_append, List.append_assoc,
            List.nil_append]
          rw [parseMembers_step f k _]
          rw [parseValue_sp f _]
          rw [ihP v d _ hwfv (restOk_append w '\x7d' rest hw (by decide))
            (by have := msize_cons_lo k v ([] : List (Chars × Json)); omega)]
          show (match skipWs (w ++ '\x7d' :: rest) with
            | ',' :: r4 =>
              match parseMembers f r4 with
              | some (ms, r5) => some ((k, v) :: ms, r5)
              | none => none
            | '\x7d' :: r4 => some ([(k, v)], r4)
            | _ => none) = some ([(k, v)], rest)
          rw [skipWs_all_append w _ hw, skipWs_cons _ _ (by decide)]
          rfl
        | cons m2 ms'' =>
          simp only [dumpMembers, dumpStr, List.cons_append, List.append_assoc,
            List.nil_append]
          rw [parseMembers_step f k _]
          rw [parseValue_sp f _]
          rw [ihP v d (',' :: (cfg.sepPad d ++ (dumpMembers cfg d (m2 :: ms'')
              ++ (w ++ '\x7d' :: rest)))) hwfv rfl
            (by have := msize_cons_lo k v (m2 :: ms''); omega)]
          show (match skipWs (',' :: (cfg.sepPad d ++ (dumpMembers cfg d
              (m2 :: ms'') ++ (w ++ '\x7d' :: rest)))) with
            | ',' :: r4 =>
              match parseMembers f r4 with
              | some (ms, r5) => some ((k, v) :: ms, r5)
              | none => none
            | '\x7d' :: r4 => some ([(k, v)], r4)
            | _ => none) = some ((k, v) :: m2 :: ms'', rest)
          rw [skipWs_cons _ _ (by decide)]
          show (match parseMembers f (cfg.sepPad d ++ (dumpMembers cfg d
              (m2 :: ms'') ++ (w ++ '\x7d' :: rest))) with
            | some (ms, r5) => some ((k, v) :: ms, r5)
            | none => none) = some ((k, v) :: m2 :: ms'', rest)
          rw [parseMembers_ws f _ _ (hpad d).2.1,
            ihQ (m2 :: ms'') d w rest hwfm' (by simp) hw hrest
              (by have := msize_cons_hi k v (m2 :: ms''); omega)]
    · -- elements
      intro vs d w rest hwf hne hw hrest hsz
      cases vs with
      | nil => exact absurd rfl hne
      | cons v vs' =>
        simp only [wfItems, Bool.and_eq_true] at hwf
        obtain ⟨hwfv, hwfv'⟩ := hwf
        rw [parseElems_succ f _]
        cases vs' with
        | nil =>
          simp only [dumpItems]
          rw [ihP v d _ hwfv (restOk_append w ']' rest hw (by decide))
            (by have := lsize_cons_lo v ([] : List Json); omega)]
          show (match skipWs (w ++ ']' :: rest) with
            | ',' :: r2 =>
              match parseElems f r2 with
              | some (es, r3) => some (v :: es, r3)
              | none => none
            | ']' :: r2 => some ([v], r2)
            | _ => none) = some ([v], rest)
          rw [skipWs_all_append w _ hw, skipWs_cons _ _ (by decide)]
          rfl
        | cons v2 vs'' =>
          simp only [dumpItems, List.cons_append, List.append_assoc,
            List.nil_append]
          rw [ihP v d (',' :: (cfg.sepPad d ++ (dumpItems cfg d (v2 :: vs'')
              ++ (w ++ ']' :: rest)))) hwfv rfl
            (by have := lsize_cons_lo v (v2 :: vs''); omega)]
          show (match skipWs (',' :: (cfg.sepPad d ++ (dumpItems cfg d
              (v2 :: vs'') ++ (w ++ ']' :: rest)))) with
            | ',' :: r2 =>
              match parseElems f r2 with
              | some (es, r3) => some (v :: es, r3)
              | none => none
            | ']' :: r2 => some ([v], r2)
            | _ => none) = some (v :: v2 :: vs'', rest)
          rw [skipWs_cons _ _ (by decide)]
          show (match parseElems f (cfg.sepPad d ++ (dumpItems cfg d
              (v2 :: vs'') ++ (w ++ ']' :: rest))) with
            | some (es, r3) => some (v :: es, r3)
            | none => none) = some (v :: v2 :: vs'', rest)
          rw [parseElems_ws f _ _ (hpad d).2.1,
            ihR (v2 :: vs'') d w rest hwfv' (by simp) hw hrest
              (by have := lsize_cons_hi v (v2 :: vs''); omega)]

/-! ### The dump is at least as long as the fuel the parser needs -/

theorem size_le_dump (cfg : DumpCfg) : ∀ N,
    (∀ v d, jsize v ≤ N → jsize v ≤ (dumpVal cfg d v).length) ∧
    (∀ v vs d, lsize (v :: vs) ≤ N →
      lsize (v :: vs) ≤ (dumpItems cfg d (v :: vs)).length + 1) ∧
    (∀ m ms d, msize (m :: ms) ≤ N →
      msize (m :: ms) ≤ (dumpMembers cfg d (m :: ms)).length + 1) := by
  intro N
  induction N with
  | zero =>
    refine ⟨?_, ?_, ?_⟩
    · intro v d hsz
      exact absurd hsz (by have := jsize_pos v; omega)
    · intro v vs d hsz
      exact absurd hsz (by have := lsize_cons_lo v vs; have := jsize_pos v
                           omega)
    · intro m ms d hsz
      obtain ⟨k, v⟩ := m
      exact absurd hsz (by have := msize_cons_lo k v ms; have := jsize_pos v
                           omega)
  | succ N ih =>
    obtain ⟨ih1, ih2, ih3⟩ := ih
    refine ⟨?_, ?_, ?_⟩
    · intro v d hsz
      cases v with
      | null =>
        show jsize Json.null ≤ ("null".toList : Chars).length
        decide
      | bool b =>
        cases b with
        | false =>
          show jsize (Json.bool false) ≤ ("false".toList : Chars).length
          decide
        | true =>
          show jsize (Json.bool true) ≤ ("true".toList : Chars).length
          decide
      | num n =>
        obtain ⟨c, t, hct, _⟩ := numChars_shape n
        show jsize (Json.num n) ≤ (numChars n).length
        rw [hct]
        simp [jsize]
      | str s =>
        show jsize (Json.str s) ≤ (dumpStr s).length
        simp [jsize, dumpStr]
      | arr es =>
        cases es with
        | nil =>
          show jsize (Json.arr []) ≤ ("[]".toList : Chars).length
          decide
        | cons v vs =>
          have hin : lsize (v :: vs) ≤ N := by
            have := jsize_arr (v :: vs); omega
          have := ih2 v vs (d + 1) hin
          show jsize (Json.arr (v :: vs))
            ≤ (dumpVal cfg d (Json.arr (v :: vs))).length
          simp only [dumpVal, jsize, List.length_append, List.length_cons]
          omega
      | obj ms =>
        cases ms with
        | nil =>
          show jsize (Json.obj []) ≤ ("\x7b\x7d".toList : Chars).length
          decide
        | cons m ms' =>
          have hin : msize (m :: ms') ≤ N := by
            have := jsize_obj (m :: ms'); omega
          have := ih3 m ms' (d + 1) hin
          show jsize (Json.obj (m :: ms'))
            ≤ (dumpVal cfg d (Json.obj (m :: ms'))).length
          simp only [dumpVal, jsize, List.length_append, List.length_cons]
          omega
    · intro v vs d hsz
      have hv : jsize v ≤ N := by
        have := lsize_cons_lo v vs; omega
      have h1 := ih1 v d hv
      cases vs with
      | nil =>
        have hls := lsize_cons_lo v ([] : List Json)
        have hls2 : lsize (v :: []) ≤ jsize v + 1 := by
          simp [lsize]
          omega
        simp only [dumpItems]
        omega
      | cons v2 vs' =>
        have hrest : lsize (v2 :: vs') ≤ N := by
          have := lsize_cons_hi v (v2 :: vs'); omega
        have h2 := ih2 v2 vs' d hrest
        have hls : lsize (v :: v2 :: vs')
            ≤ 1 + max (jsize v) (lsize (v2 :: vs')) := by
          simp [lsize]
        have hmax : max (jsize v) (lsize (v2 :: vs'))
            ≤ max (jsize v) (lsize (v2 :: vs')) := le_rfl
        have hm1 := le_max_left (jsize v) (lsize (v2 :: vs'))
        have hm2 := le_max_right (jsize v) (lsize (v2 :: vs'))
        have hmle : max (jsize v) (lsize (v2 :: vs'))
            ≤ (dumpVal cfg d v).length + ((dumpItems cfg d (v2 :: vs')).length
              + 1) :=
          max_le (by omega) (by omega)
        simp only [dumpItems, List.length_append, List.length_cons]
        omega
    · intro m ms d hsz
      obtain ⟨k, v⟩ := m
      have hv : jsize v ≤ N := by
        have := msize_cons_lo k v ms; omega
      have h1 := ih1 v d hv
      cases ms with
      | nil =>
        have hms : msize ((k, v) :: []) ≤ jsize v + 1 := by
          simp [msize]
          omega
        simp only [dumpMembers, List.length_append, List.length_cons]
        omega
      | cons m2 ms' =>
        have hrest : msize (m2 :: ms') ≤ N := by
          have := msize_cons_hi k v (m2 :: ms'); omega
        have h2 := ih3 m2 ms' d hrest
        have hms : msize ((k, v) :: m2 :: ms')
            ≤ 1 + max (jsize v) (msize (m2 :: ms')) := by
          simp [msize]
        have hmle : max (jsize v) (msize (m2 :: ms'))
            ≤ (dumpVal cfg d v).length + ((dumpMembers cfg d (m2 :: ms')).length
              + 1) :=
          max_le (by omega) (by omega)
        simp only [dumpMembers, List.length_append, List.length_cons]
        omega

/-! ### `json.loads` inverts `json.dumps` on well-formed values -/

theorem jsonLoads_dumpVal (cfg : DumpCfg) (hpad : padOk cfg) (v : Json)
    (hwf : wfJ v = true) : jsonLoads (dumpVal cfg 0 v) = some v := by
  rw [jsonLoads]
  have hsz : jsize v ≤ (dumpVal cfg 0 v).length :=
    (size_le_dump cfg (jsize v)).1 v 0 le_rfl
  have h := (parse_dump_round cfg hpad ((dumpVal cfg 0 v).length + 1)).1 v 0 []
    hwf rfl (by omega)
  rw [List.append_nil] at h
  rw [h]
  rfl

theorem jsonLoads_pyDumps (v : Json) (hwf : wfJ v = true) :
    jsonLoads (pyDumps v) = some v :=
  jsonLoads_dumpVal compactCfg padOk_compact v hwf

theorem jsonLoads_pyDumpsIndent2 (v : Json) (hwf : wfJ v = true) :
    jsonLoads (pyDumpsIndent2 v) = some v :=
  jsonLoads_dumpVal indent2Cfg padOk_indent2 v hwf

/-! ### Well-formedness of serialized records -/

theorem wfJ_optStr (o : Option Chars) : wfJ (optStr o) = true := by
  cases o <;> rfl

theorem wfJ_optNum (o : Option JNum) (h : optNumNormal o = true) :
    wfJ (optNum o) = true := by
  cases o with
  | none => rfl
  | some n => exact h

theorem wfJ_lineItem (it : LineItem) (h : lineItemValid it = true) :
    wfJ (lineItemToJson it) = true := by
  simp only [lineItemValid, Bool.and_eq_true] at h
  obtain ⟨⟨hq, hu⟩, ha⟩ := h
  simp only [lineItemToJson, wfJ, wfMembers, Bool.and_eq_true]
  refine ⟨?_, wfJ_optStr _, wfJ_optNum _ hq, wfJ_optNum _ hu,
    wfJ_optNum _ ha, trivial⟩
  show keysNoDup ["description".toList, "quantity".toList, "unit_price".toList,
    "amount".toList] = true
  decide

theorem wfItems_map_lineItem (its : List LineItem)
    (h : its.all lineItemValid = true) :
    wfItems (its.map lineItemToJson) = true := by
  induction its with
  | nil => rfl
  | cons it its ih =>
    simp only [List.all_cons, Bool.and_eq_true] at h
    simp only [List.map_cons, wfItems, Bool.and_eq_true]
    exact ⟨wfJ_lineItem it h.1, ih h.2⟩

theorem wfJ_recordToJson (r : InvoiceRecord) (h : recordValid r = true) :
    wfJ (recordToJson r) = true := by
  simp only [recordValid, Bool.and_eq_true] at h
  obtain ⟨⟨⟨h1, h2⟩, h3⟩, h4⟩ := h
  simp only [recordToJson, wfJ, wfMembers, Bool.and_eq_true]
  refine ⟨?_, wfJ_optStr _, wfJ_optStr _, wfJ_optStr _, wfJ_optStr _,
    wfJ_optStr _, wfJ_optNum _ h1, wfJ_optNum _ h2, wfJ_optNum _ h3,
    wfJ_optStr _, wfJ_optStr _, wfItems_map_lineItem _ h4, wfJ_optStr _,
    wfJ_optStr _, trivial⟩
  show keysNoDup ["vendor_name".toList, "vendor_address".toList,
    "invoice_number".toList, "invoice_date".toList, "due_date".toList,
    "subtotal".toList, "tax".toList, "total".toList, "currency".toList,
    "payment_method".toList, "line_items".toList,
    "category_suggestion".toList, "notes".toList] = true
  decide

/-! ### Stripping is the identity on serialized objects -/

theorem pyStrip_self (l : Chars) (hh : ∀ c, l.head? = some c → pyWs c = false)
    (hl : ∀ c, l.getLast? = some c → pyWs c = false) : pyStrip l = l := by
  have h := pyStrip_sandwich [] l [] (by simp) (by simp) hh hl
  simpa using h

theorem pyStrip_pyDumps_obj (m : Chars × Json) (ms : List (Chars × Json)) :
    pyStrip (pyDumps (Json.obj (m :: ms))) = pyDumps (Json.obj (m :: ms)) := by
  obtain ⟨Y, hY⟩ : ∃ Y, pyDumps (Json.obj (m :: ms)) = Y ++ ['\x7d'] :=
    ⟨_, rfl⟩
  apply pyStrip_self
  · intro c hc
    have h1 : (pyDumps (Json.obj (m :: ms))).head? = some '\x7b' := rfl
    rw [h1] at hc
    simp only [Option.some.injEq] at hc
    subst hc
    rfl
  · intro c hc
    rw [hY, List.getLast?_concat] at hc
    simp only [Option.some.injEq] at hc
    subst hc
    rfl

set_option maxHeartbeats 4000000
set_option maxRecDepth 100000

/-! ## Supporting constants and facts for the claim theorems -/

/-- The keys a parsed value exposes (empty for non-objects). -/
def jsonKeys : Json → List Chars
  | .obj ms => ms.map Prod.fst
  | _ => []

/-- The field names of the target schema, in schema order. -/
def schemaKeys : List Chars :=
  ["vendor_name".toList, "vendor_address".toList, "invoice_number".toList,
    "invoice_date".toList, "due_date".toList, "subtotal".toList,
    "tax".toList, "total".toList, "currency".toList, "payment_method".toList,
    "line_items".toList, "category_suggestion".toList, "notes".toList]

theorem jsonKeys_recordToJson (r : InvoiceRecord) :
    jsonKeys (recordToJson r) = schemaKeys := rfl

theorem analyze_false_eq (call : Chars → Except Chars Chars) (text : Chars) :
    analyze_invoice_with_gemini false call text
      = (Json.obj [(errKey, Json.str noKeyMsg)], 0) := rfl

theorem analyze_true_eq (call : Chars → Except Chars Chars) (text : Chars) :
    analyze_invoice_with_gemini true call text
      = match call (buildPrompt text) with
        | .error e => (Json.obj [(errKey, Json.str e)], 1)
        | .ok raw =>
          match jsonLoads (pyStrip (stripFences raw)) with
          | some v => (v, 1)
          | none => (Json.obj [(errKey, Json.str parseFailMsg),
              (rawKey, Json.str raw)], 1) := rfl

theorem errRecord_exclusive (v : Json) :
    (isErrObjB v && isRecordObjB v) = false := by
  cases v with
  | obj ms =>
    simp only [isErrObjB, isRecordObjB]
    cases h : lookupJ ms errKey with
    | none => rfl
    | some x => cases x <;> rfl
  | null => rfl
  | bool b => rfl
  | num n => rfl
  | str s => rfl
  | arr es => rfl

/-- A sample record used as concrete input below: vendor and total set,
everything else null. -/
def cexRecord : InvoiceRecord :=
  ⟨some "Acme Corp".toList, none, none, none, none, none, none,
    some ⟨false, false, 45, 0⟩, none, none, [], none, none⟩

/-- The §8 scenario: the model's reply text. -/
def scenarioReply : Chars :=
  ("Here is the data:\n```json\n\x7b\"vendor_name\":\"Acme Corp\"," ++
    "\"invoice_number\":\"100\",\"invoice_date\":\"2024-03-14\"," ++
    "\"total\":45.00,\"currency\":\"USD\",\"line_items\":[]," ++
    "\"category_suggestion\":\"Office Supplies\"\x7d\n```").toList

/-- The §8 scenario: the extracted document text. -/
def scenarioText : Chars :=
  "Acme Corp\nInvoice #100\nTotal: $45.00\nDate: 03/14/2024".toList

/-- The §8 scenario: the parsed record the reply normalizes to. -/
def scenarioObj : Json :=
  Json.obj [("vendor_name".toList, Json.str "Acme Corp".toList),
    ("invoice_number".toList, Json.str "100".toList),
    ("invoice_date".toList, Json.str "2024-03-14".toList),
    ("total".toList, Json.num ⟨false, false, 45, 0⟩),
    ("currency".toList, Json.str "USD".toList),
    ("line_items".toList, Json.arr []),
    ("category_suggestion".toList, Json.str "Office Supplies".toList)]

theorem extract_go (pages : List Chars) : ∀ acc : Chars,
    pages.foldl (fun text p => if p.isEmpty then text else text ++ p ++ ['\n'])
      acc
      = acc ++ ((pages.filter (fun p => !p.isEmpty)).map
          (fun p => p ++ ['\n'])).flatten := by
  induction pages with
  | nil =>
    intro acc
    simp
  | cons p ps ih =>
    intro acc
    simp only [List.foldl_cons]
    rw [ih]
    by_cases hp : p.isEmpty
    · simp [List.filter_cons, hp]
    · simp [List.filter_cons, hp, List.append_assoc]

/-! ## The claims -/

/-- Claim C1 (counterexample): a reply that parses to a non-object JSON value
makes the analyze step return that value verbatim, which is neither an error
object nor a record object — the run produces neither of the two advertised
outcomes. -/
theorem C1_cex :
    (analyze_invoice_with_gemini true (fun _ => .ok "42".toList) []).1
      = Json.num (mkInt false 42) ∧
    isErrObjB (Json.num (mkInt false 42)) = false ∧
    isRecordObjB (Json.num (mkInt false 42)) = false := ⟨rfl, rfl, rfl⟩

/-- Claim C1 (amended): every run of the analyze step returns exactly one
value and never both an error object and a record object; the result is an
error object on every failure path, and otherwise it is exactly the JSON
value the reply parsed to — which need not be an object at all. -/
theorem C1_amended (configured : Bool) (call : Chars → Except Chars Chars)
    (text : Chars) :
    (isErrObjB (analyze_invoice_with_gemini configured call text).1 &&
      isRecordObjB (analyze_invoice_with_gemini configured call text).1)
      = false ∧
    (isErrObjB (analyze_invoice_with_gemini configured call text).1 = true ∨
      ∃ raw v, call (buildPrompt text) = .ok raw ∧
        jsonLoads (pyStrip (stripFences raw)) = some v ∧
        (analyze_invoice_with_gemini configured call text).1 = v) := by
  refine ⟨errRecord_exclusive _, ?_⟩
  cases configured with
  | false =>
    left
    rw [analyze_false_eq]
    rfl
  | true =>
    cases hcall : call (buildPrompt text) with
    | error e =>
      left
      rw [analyze_true_eq, hcall]
      rfl
    | ok raw =>
      cases hparse : jsonLoads (pyStrip (stripFences raw)) with
      | none =>
        left
        rw [analyze_true_eq, hcall]
        show isErrObjB (match jsonLoads (pyStrip (stripFences raw)) with
          | some v => (v, 1)
          | none => (Json.obj [(errKey, Json.str parseFailMsg),
              (rawKey, Json.str raw)], 1)).1 = true
        rw [hparse]
        rfl
      | some v =>
        right
        refine ⟨raw, v, rfl, hparse, ?_⟩
        rw [analyze_true_eq, hcall]
        show (match jsonLoads (pyStrip (stripFences raw)) with
          | some v => (v, 1)
          | none => (Json.obj [(errKey, Json.str parseFailMsg),
              (rawKey, Json.str raw)], 1)).1 = v
        rw [hparse]

/-- Claim C2 (counterexample): with arbitrary commentary allowed, commentary
that itself contains a JSON-tagged fence makes the normalizer parse the
commentary's block instead of the record, so the round trip fails. -/
theorem C2_cex :
    jsonLoads (pyStrip (stripFences
      ("```json\n[]\n```\n".toList ++ fenceJson ++
        (pyDumps (recordToJson cexRecord) ++ fenceMark ++ []))))
      = some (Json.arr []) ∧
    some (Json.arr []) ≠ some (recordToJson cexRecord) := by
  refine ⟨rfl, ?_⟩
  simp [recordToJson]

/-- Claim C2 (amended): the round trip holds when the leading commentary
contains no JSON-tagged fence opener, the serialized record contains no fence
marker, and no JSON-tagged opener straddles the closing fence into the
trailing commentary: then normalizing the fenced serialized record recovers
it exactly. -/
theorem C2_amended (r : InvoiceRecord) (pre post : Chars)
    (hr : recordValid r = true)
    (h1 : hasSub fenceJson (pre ++ fenceJson.dropLast) = false)
    (h2 : hasSub fenceMark (pyDumps (recordToJson r) ++ fenceMark.dropLast)
      = false)
    (h3 : hasSub fenceJson (pyDumps (recordToJson r) ++ fenceMark
      ++ post.take 6) = false) :
    jsonLoads (pyStrip (stripFences
      (pre ++ fenceJson ++ (pyDumps (recordToJson r) ++ fenceMark ++ post))))
      = some (recordToJson r) := by
  rw [stripFences_json pre (pyDumps (recordToJson r)) post h1 h2 h3]
  have hstrip : pyStrip (pyDumps (recordToJson r)) = pyDumps (recordToJson r) :=
    pyStrip_pyDumps_obj _ _
  rw [hstrip]
  exact jsonLoads_pyDumps (recordToJson r) (wfJ_recordToJson r hr)

/-- Claim C2 (witness): the amended round trip at a concrete record with
concrete fence-free commentary on both sides. -/
theorem C2_amended_witness :
    jsonLoads (pyStrip (stripFences
      ("Sure:\n".toList ++ fenceJson ++ (pyDumps (recordToJson cexRecord)
        ++ fenceMark ++ "\nDone".toList))))
      = some (recordToJson cexRecord) :=
  C2_amended cexRecord "Sure:\n".toList "\nDone".toList rfl rfl rfl rfl

/-- Claim C3 (counterexample): the split-based stripping does not return the
content between the first JSON-tagged opener and its closing marker: here
that content is the single character A, but the code returns it with two
backticks appended, because the closing scan consumes a longer separator
first. -/
theorem C3_cex :
    stripFences "```jsonA`````json".toList = "A``".toList ∧
    "A``".toList ≠ "A".toList := ⟨rfl, by decide⟩

/-- Claim C3 (amended): the three-clause fence dispatch holds under
non-interference side conditions: a JSON-tagged fence is cut at its first
occurrence with everything outside discarded provided no earlier overlapping
opener, no fence marker inside the block and no straddling opener after it;
the generic clause behaves likewise when no JSON-tagged marker occurs at
all; text without fence markers passes through unchanged. -/
theorem C3_amended :
    (∀ pre mid post, hasSub fenceJson (pre ++ fenceJson.dropLast) = false →
      hasSub fenceMark (mid ++ fenceMark.dropLast) = false →
      hasSub fenceJson (mid ++ fenceMark ++ post.take 6) = false →
      stripFences (pre ++ fenceJson ++ (mid ++ fenceMark ++ post)) = mid) ∧
    (∀ pre mid post,
      hasSub fenceJson (pre ++ fenceMark ++ (mid ++ fenceMark ++ post))
        = false →
      hasSub fenceMark (pre ++ fenceMark.dropLast) = false →
      hasSub fenceMark (mid ++ fenceMark.dropLast) = false →
      stripFences (pre ++ fenceMark ++ (mid ++ fenceMark ++ post)) = mid) ∧
    (∀ t, hasSub fenceMark t = false → stripFences t = t) :=
  ⟨stripFences_json, stripFences_generic, stripFences_nofence⟩

/-- Claim C4 (counterexample): on parse failure the error message the code
produces is Failed to parse response, not the claimed lower-case failed to
parse response. -/
theorem C4_cex :
    (analyze_invoice_with_gemini true (fun _ => .ok ['\x7b']) []).1
      = Json.obj [(errKey, Json.str parseFailMsg),
          (rawKey, Json.str ['\x7b'])] ∧
    parseFailMsg ≠ "failed to parse response".toList := ⟨rfl, by decide⟩

/-- Claim C4 (amended): whenever the configured call succeeds but the
fence-stripped, whitespace-trimmed reply is not valid JSON, the analyze step
returns the error object with message Failed to parse response and
raw_response equal to the original unstripped reply — never a partial
record. -/
theorem C4_amended (call : Chars → Except Chars Chars) (text raw : Chars)
    (hcall : call (buildPrompt text) = .ok raw)
    (hfail : jsonLoads (pyStrip (stripFences raw)) = none) :
    analyze_invoice_with_gemini true call text
      = (Json.obj [(errKey, Json.str parseFailMsg), (rawKey, Json.str raw)],
          1) := by
  rw [analyze_true_eq, hcall]
  show (match jsonLoads (pyStrip (stripFences raw)) with
    | some v => (v, 1)
    | none => (Json.obj [(errKey, Json.str parseFailMsg),
        (rawKey, Json.str raw)], 1)) = _
  rw [hfail]

/-- Claim C4 (witness): the amended parse-failure behavior at the concrete
truncated reply consisting of a lone opening brace. -/
theorem C4_amended_witness :
    analyze_invoice_with_gemini true (fun _ => Except.ok ['\x7b']) []
      = (Json.obj [(errKey, Json.str parseFailMsg),
          (rawKey, Json.str ['\x7b'])], 1) :=
  C4_amended (fun _ => Except.ok ['\x7b']) [] ['\x7b'] rfl rfl

/-- Claim C5 (counterexample): the code performs no string-to-number
coercion: a numeric field arriving as the string 123.45 stays a string, and
a non-numeric string stays a string rather than becoming null. -/
theorem C5_cex :
    (analyze_invoice_with_gemini true
      (fun _ => .ok "\x7b\"total\": \"123.45\"\x7d".toList) []).1
      = Json.obj [("total".toList, Json.str "123.45".toList)] ∧
    Json.str "123.45".toList ≠ Json.num ⟨false, false, 1245, -2⟩ ∧
    (analyze_invoice_with_gemini true
      (fun _ => .ok "\x7b\"total\": \"abc\"\x7d".toList) []).1
      = Json.obj [("total".toList, Json.str "abc".toList)] ∧
    Json.str "abc".toList ≠ Json.null := by
  refine ⟨rfl, ?_, rfl, ?_⟩ <;> simp

/-- Claim C5 (amended): on any successful parse the analyze step returns the
parsed JSON value verbatim — fields keep exactly the types the reply gave
them, with no coercion and no per-field nulling; only a malformed overall
document is a failure. -/
theorem C5_amended (call : Chars → Except Chars Chars) (text raw : Chars)
    (v : Json) (hcall : call (buildPrompt text) = .ok raw)
    (hparse : jsonLoads (pyStrip (stripFences raw)) = some v) :
    analyze_invoice_with_gemini true call text = (v, 1) := by
  rw [analyze_true_eq, hcall]
  show (match jsonLoads (pyStrip (stripFences raw)) with
    | some v => (v, 1)
    | none => (Json.obj [(errKey, Json.str parseFailMsg),
        (rawKey, Json.str raw)], 1)) = _
  rw [hparse]

/-- Claim C5 (witness): the amended verbatim-preservation at a concrete
string-typed numeric field. -/
theorem C5_amended_witness :
    analyze_invoice_with_gemini true
      (fun _ => Except.ok "\x7b\"total\": \"123.45\"\x7d".toList) []
      = (Json.obj [("total".toList, Json.str "123.45".toList)], 1) :=
  C5_amended (fun _ => Except.ok "\x7b\"total\": \"123.45\"\x7d".toList) []
    "\x7b\"total\": \"123.45\"\x7d".toList
    (Json.obj [("total".toList, Json.str "123.45".toList)]) rfl rfl

/-- Claim C6 (counterexample): the structured export serializes the parsed
reply verbatim: an unrecognized key is kept, and schema keys the model
omitted do not appear at all, so the export does not reproduce the schema. -/
theorem C6_cex :
    (analyze_invoice_with_gemini true
      (fun _ => .ok "\x7b\"bogus\": 1\x7d".toList) []).1
      = Json.obj [("bogus".toList, Json.num (mkInt false 1))] ∧
    jsonKeys (Json.obj [("bogus".toList, Json.num (mkInt false 1))])
      ≠ schemaKeys ∧
    lookupJ [("bogus".toList, Json.num (mkInt false 1))] "vendor_name".toList
      = none := ⟨rfl, by decide, rfl⟩

/-- Claim C6 (amended): for a result that actually has the record shape, the
schema serialization is faithful: the serialized object carries exactly the
thirteen schema keys in order (null-valued fields included), and the
indent-2 JSON export parses back to exactly that object. -/
theorem C6_amended (r : InvoiceRecord) (hr : recordValid r = true) :
    jsonKeys (recordToJson r) = schemaKeys ∧
    jsonLoads (exportJson (recordToJson r)) = some (recordToJson r) := by
  refine ⟨rfl, ?_⟩
  rw [exportJson]
  exact jsonLoads_pyDumpsIndent2 (recordToJson r) (wfJ_recordToJson r hr)

/-- Claim C6 (witness): the amended export round trip at a concrete record. -/
theorem C6_amended_witness :
    jsonKeys (recordToJson cexRecord) = schemaKeys ∧
    jsonLoads (exportJson (recordToJson cexRecord))
      = some (recordToJson cexRecord) :=
  C6_amended cexRecord rfl

/-- Claim C7 (counterexample): a null-valued field present in the result
renders as None in the flat-export row, not as the empty string the claim
requires. -/
theorem C7_cex :
    csv_line (Json.obj [("invoice_date".toList, Json.null)])
      = "None,,,".toList ∧
    "None,,,".toList ≠ ",,,".toList := ⟨rfl, by decide⟩

/-- Claim C7 (amended): the flat export is the fixed header line plus one
data row from the four fields; an absent key contributes the empty string
(a present null renders as None instead); the §8 scenario reply normalizes
to the §8 record and its flat export reads exactly as specified. -/
theorem C7_amended :
    (∀ result, csvExport result
      = "date,vendor,total,category\n".toList ++ csv_line result) ∧
    (∀ ms k, lookupJ ms k = none → getCsv (Json.obj ms) k = Json.str []) ∧
    (analyze_invoice_with_gemini true (fun _ => Except.ok scenarioReply)
      scenarioText).1 = scenarioObj ∧
    csvExport scenarioObj
      = ("date,vendor,total,category\n" ++
          "2024-03-14,Acme Corp,45.0,Office Supplies").toList := by
  refine ⟨fun result => rfl, ?_, rfl, rfl⟩
  intro ms k h
  show (lookupJ ms k).getD (Json.str []) = Json.str []
  rw [h]
  rfl

/-- Claim C8 (counterexample): the unconfigured short-circuit message is
GEMINI_API_KEY not configured. Set in .env file. — not the claimed service
not configured. -/
theorem C8_cex :
    analyze_invoice_with_gemini false (fun _ => .ok "\x7b\x7d".toList) []
      = (Json.obj [(errKey, Json.str noKeyMsg)], 0) ∧
    noKeyMsg ≠ "service not configured".toList := ⟨rfl, by decide⟩

/-- Claim C8 (amended): with no credential configured the analyze step
returns the configuration error object with the actual message and performs
zero model calls, for every client and every input text. -/
theorem C8_amended (call : Chars → Except Chars Chars) (text : Chars) :
    analyze_invoice_with_gemini false call text
      = (Json.obj [(errKey, Json.str noKeyMsg)], 0) := rfl

/-- Claim C9 (counterexample): each kept page is terminated by a newline,
not joined: one page of text a yields a followed by a newline, where one
newline-joined segment would be a alone. -/
theorem C9_cex :
    extract_text_from_pdf [['a']] = ['a', '\n'] ∧
    (['a', '\n'] : Chars) ≠ ['a'] := ⟨rfl, by decide⟩

/-- Claim C9 (amended): the extractor output is the concatenation, in
original page order, of each non-empty page text followed by one newline
terminator; empty pages contribute nothing, and the M kept pages produce M
newline-terminated (not newline-joined) segments. -/
theorem C9_amended (pages : List Chars) :
    extract_text_from_pdf pages
      = ((pages.filter (fun p => !p.isEmpty)).map
          (fun p => p ++ ['\n'])).flatten := by
  rw [extract_text_from_pdf, extract_go]
  rw [List.nil_append]

/-- Claim C10 (confirmed): the prompt builder is pure string composition:
the prompt is the fixed instruction header, the joining newline, then the
input text appended verbatim, and its length is the header length plus the
text length plus one. -/
theorem C10_prompt (text : Chars) :
    buildPrompt text = promptHeader ++ '\n' :: text ∧
    (buildPrompt text).length = promptHeader.length + text.length + 1 := by
  have hsplit : INVOICE_EXTRACTION_PROMPT = promptHeader ++ ['\n'] := rfl
  constructor
  · rw [buildPrompt, hsplit, List.append_assoc]
    rfl
  · simp only [buildPrompt, hsplit, List.length_append, List.length_cons,
      List.length_nil]
    omega
